import Mathlib

/-!
# wise_enum: reflection tables, name lookup and compact optionals

A shallow embedding of `wise_enum.hpp`.

* An enum value is its underlying integer (`Int`); `static_cast` between the enum and its
  underlying type keeps the integer.
* A C `char` is a `Char`, the character of code 0 being NUL; where the order of the `char`
  values matters, `char_value` gives the value of a `char` for a signed or unsigned plain
  `char`.
* A value of type `const char *` is a `CharPtr`: the null pointer, or the characters that can be
  read from the pointee on. Reading past them is undefined behaviour, which the functions that
  read memory report by returning `none`.
* The header chooses `string_type` and `optional_type` with `#if __cplusplus == 201703L`; both
  choices are embedded, indexed by `Dialect`.
* Preprocessor functions (`WISE_ENUM_IMPL_...`) are functions on argument lists. The text of an
  argument is a `List Char`.
-/

namespace wise_enum

/-! ## Configuration: `string_type` and `optional_type` (lines 7-129) -/

/-- Branch taken by `#if __cplusplus == 201703L` (lines 9 and 115): `cpp17` when the test holds
(`std::optional`, `std::string_view`), `other` when it does not (`wise_enum::optional`,
`const char *`). -/
inductive Dialect where
  | other
  | cpp17
  deriving DecidableEq

/-- The terminating character of a C string. -/
def NUL : Char := Char.ofNat 0

/-- A `const char *`: null, or a pointer to readable memory holding `mem` from the pointee on. -/
inductive CharPtr where
  | null
  | ptr (mem : List Char)
  deriving DecidableEq

/-- `string_type` (lines 113-129): `const char *`, or `std::string_view` (a character sequence
with its length). -/
def string_type : Dialect → Type
  | .other => CharPtr
  | .cpp17 => List Char

instance (d : Dialect) : DecidableEq (string_type d) := by
  cases d <;> unfold string_type <;> infer_instance

/-- `string_type{}`: the null pointer, or the empty view. -/
def string_type.default : (d : Dialect) → string_type d
  | .other => CharPtr.null
  | .cpp17 => ([] : List Char)

/-- A string literal with the given characters, converted to `string_type`: a pointer to the
characters followed by NUL, or the view built from that pointer, which ends before the first
NUL. -/
def string_type.literal : (d : Dialect) → List Char → string_type d
  | .other, cs => CharPtr.ptr (cs ++ [NUL])
  | .cpp17, cs => (cs.takeWhile (fun c => c != NUL) : List Char)

/-- `struct bad_optional_access : std::exception` (lines 28-32). -/
inductive bad_optional_access where
  | mk
  deriving DecidableEq

/-! ## `wise_enum::optional` (lines 39-99) -/

/-- `class optional`: the members `T m_t; bool m_active = false;`. -/
structure optional where
  m_t : Int
  m_active : Bool
  deriving DecidableEq

namespace optional

/-- `optional() = default;` leaves `m_t` with an indeterminate value, given here as `junk`. -/
def default (junk : Int) : optional := ⟨junk, false⟩

/-- Value-initialisation `optional{}`, as in `return {};`: zeroed, then `m_active = false`. -/
def value_init : optional := ⟨0, false⟩

/-- `optional(T t) : m_t(t), m_active(true) {}`. -/
def of (t : Int) : optional := ⟨t, true⟩

/-- The overloads `operator*() &` and `operator*() const &` (lines 47-48), which an lvalue
object selects: `return m_t;`. The two rvalue overloads are in `deref_on`. -/
def deref (o : optional) : Int := o.m_t

/-- `explicit operator bool`: `return m_active;`. -/
def to_bool (o : optional) : Bool := o.m_active

/-- `has_value()`: `return m_active;`. -/
def has_value (o : optional) : Bool := o.m_active

/-- The overloads `value() &` and `value() const &` (lines 55-66), which an lvalue object
selects: `if (m_active) return m_t; else throw bad_optional_access{};`. The two rvalue
overloads are in `value_on`. -/
def value (o : optional) : Except bad_optional_access Int :=
  if o.m_active then .ok o.m_t else .error bad_optional_access.mk

/-- `value_or(U &&u)`: `if (m_active) return m_t; else return std::forward<U>(u);`. -/
def value_or (o : optional) (u : Int) : Int :=
  if o.m_active then o.m_t else u

/-- `reset()`: `m_active = false;`. -/
def reset (o : optional) : optional := ⟨o.m_t, false⟩

/-- The ref-qualifier of an overload of `operator*` and of `value()`: `&`, `const &`, `&&` or
`const &&`. A call selects the overload by the value category and constness of the object
expression: an lvalue object the first two, an rvalue object (a temporary, such as the result
of `from_string`) the last two. -/
inductive RefQualifier where
  | lvalue
  | const_lvalue
  | rvalue
  | const_rvalue
  deriving DecidableEq

/-- Whether the overload is a `const` member function, in which `m_t` has type `const T`. -/
def RefQualifier.is_const : RefQualifier → Bool
  | .lvalue => false
  | .const_lvalue => true
  | .rvalue => false
  | .const_rvalue => true

/-- Whether the return type of the overload is an rvalue reference: the four overloads return
`T &`, `const T &`, `T &&` and `const T &&`. -/
def RefQualifier.returns_rvalue_reference : RefQualifier → Bool
  | .lvalue => false
  | .const_lvalue => false
  | .rvalue => true
  | .const_rvalue => true

/-- Whether the return type of the overload is a reference to `const T`. -/
def RefQualifier.returns_const : RefQualifier → Bool
  | .lvalue => false
  | .const_lvalue => true
  | .rvalue => false
  | .const_rvalue => true

/-- Whether `return m_t;` is well-formed in the overload. In every member function the
expression `m_t` is an lvalue; an lvalue reference binds to it when it does not drop `const`,
an rvalue reference does not bind to an lvalue. -/
def RefQualifier.return_m_t_binds (q : RefQualifier) : Bool :=
  !q.returns_rvalue_reference && (q.returns_const || !q.is_const)

/-- Each overload of `operator*` (lines 47-50): `return m_t;`. The result is `none` when the
overload is ill-formed, so that a program that calls it does not compile. -/
def deref_on (q : RefQualifier) (o : optional) : Option Int :=
  if q.return_m_t_binds then some o.m_t else none

/-- Each overload of `value()` (lines 55-79):
`if (m_active) return m_t; else throw bad_optional_access{};`. The result is `none` when the
overload is ill-formed, so that a program that calls it does not compile. -/
def value_on (q : RefQualifier) (o : optional) : Option (Except bad_optional_access Int) :=
  if q.return_m_t_binds then
    some (if o.m_active then .ok o.m_t else .error bad_optional_access.mk)
  else none

end optional

/-- `optional_type<T>` (lines 7-111): `wise_enum::optional<T>`, or `std::optional<T>`. -/
def optional_type : Dialect → Type
  | .other => optional
  | .cpp17 => Option Int

/-- The empty `optional_type<T>` made by `return {};`. -/
def optional_type.empty : (d : Dialect) → optional_type d
  | .other => optional.value_init
  | .cpp17 => (none : Option Int)

/-- The `optional_type<T>` made from a `T` by the converting constructor. -/
def optional_type.of : (d : Dialect) → Int → optional_type d
  | .other, t => optional.of t
  | .cpp17, t => (some t : Option Int)

/-- `has_value()` of an `optional_type<T>`. -/
def optional_type.has_value : (d : Dialect) → optional_type d → Bool
  | .other, o => optional.has_value o
  | .cpp17, o => Option.isSome (o : Option Int)

/-- `value()` of an `optional_type<T>`; `std::optional` throws `std::bad_optional_access`. -/
def optional_type.value : (d : Dialect) → optional_type d → Except bad_optional_access Int
  | .other, o => optional.value o
  | .cpp17, o =>
    match (o : Option Int) with
    | some t => .ok t
    | none => .error bad_optional_access.mk

/-! ## `detail` (lines 137-180) -/

namespace detail

/-- `struct value_and_name { T value; string_type name; }`. -/
structure value_and_name (d : Dialect) where
  value : Int
  name : string_type d

/-- The loop and the final comparisons of `detail::strcmp`, on the memory read through `s1` and
`s2`. Each step reads `*s1` and `*s2`; `s1++, s2++` drops the first character of both. The
order of `Char` stands for the order of the `char` values where plain `char` is unsigned;
`strcmp_chars` below has the same body for either signedness of plain `char`, and returns 0
on the same arguments. -/
def strcmp_mem : List Char → List Char → Option Int
  | [], _ => none
  | _ :: _, [] => none
  | c1 :: r1, c2 :: r2 =>
    if c1 != NUL && c1 == c2 then strcmp_mem r1 r2
    else if c1 < c2 then some (-1)
    else if c1 > c2 then some 1
    else some 0

/-- `int strcmp(const char *s1, const char *s2)` (lines 157-168). -/
def strcmp : CharPtr → CharPtr → Option Int
  | .ptr m1, .ptr m2 => strcmp_mem m1 m2
  | _, _ => none

/-- `bool compare(const char *s1, const char *s2)`: `return strcmp(s1, s2) == 0;`. -/
def compare_ptr (s1 s2 : CharPtr) : Option Bool :=
  (strcmp s1 s2).map (fun r => r == 0)

/-- `template <class U, ...> bool compare(U u1, U u2)`: `return u1 == u2;`, for `U` other than
`const char *`. -/
def compare_value {U : Type} [DecidableEq U] (u1 u2 : U) : Bool := u1 == u2

/-- `detail::compare` on two `string_type`, after overload resolution. -/
def compare : (d : Dialect) → string_type d → string_type d → Option Bool
  | .other, s1, s2 => compare_ptr s1 s2
  | .cpp17, s1, s2 => some (compare_value (U := List Char) s1 s2)

end detail

/-! ## Preprocessor building blocks (lines 182-239) -/

/-- One argument of a macro invocation: a token sequence `x` that does not start with a
parenthesis, or a parenthesised group `(first, rest)`, `rest` being everything after the first
comma of the group. The texts have balanced parentheses and hold no string or character
literal. -/
inductive Arg where
  | plain (x : List Char)
  | paren (first : List Char) (rest : List Char)
  deriving DecidableEq

/-- The text of an argument as it was written. -/
def Arg.text : Arg → List Char
  | .plain x => x
  | .paren first rest => ['('] ++ first ++ [','] ++ rest ++ [')']

/-- A token handed from one macro to the next: a number of `WISE_ENUM_IMPL_RSEQ_N`, or one
of the arguments of the invocation. -/
inductive Tok where
  | num (n : Nat)
  | arg (a : Arg)
  deriving DecidableEq

/-- The delimiter macros handed to the loops. -/
inductive Delim where
  | comma
  | nothing
  deriving DecidableEq

/-- `#define WISE_ENUM_IMPL_COMMA() ,` -/
def WISE_ENUM_IMPL_COMMA (_ : Unit) : Delim := Delim.comma

/-- `#define WISE_ENUM_IMPL_NOTHING()` -/
def WISE_ENUM_IMPL_NOTHING (_ : Unit) : Delim := Delim.nothing

/-- `#define WISE_ENUM_IMPL_XSTR(s) #s`: the characters of the string literal made from `s`. -/
def WISE_ENUM_IMPL_XSTR (s : List Char) : List Char := s

/-- `#define WISE_ENUM_IMPL_STR(s) WISE_ENUM_IMPL_XSTR(s)` -/
def WISE_ENUM_IMPL_STR (s : List Char) : List Char := WISE_ENUM_IMPL_XSTR s

/-- `WISE_ENUM_IMPL_IIF(c)` pastes `c` to `WISE_ENUM_IMPL_IIF_`; `WISE_ENUM_IMPL_IIF_1(t, f)`
is `t` and `WISE_ENUM_IMPL_IIF_0(t, f)` is `f`. Every `c` passed in the header is a result of
`WISE_ENUM_IMPL_IS_PAREN`. -/
def WISE_ENUM_IMPL_IIF {α : Type} (c : List Char) (t f : α) : α :=
  if c = ['1'] then t else f

/-- `#define WISE_ENUM_IMPL_CHECK_N(x, n, ...) n`: the second argument. -/
def WISE_ENUM_IMPL_CHECK_N (args : List (List Char)) : List Char :=
  args.getD 1 []

/-- `#define WISE_ENUM_IMPL_CHECK(...) WISE_ENUM_IMPL_CHECK_N(__VA_ARGS__, 0, )` -/
def WISE_ENUM_IMPL_CHECK (va_args : List (List Char)) : List Char :=
  WISE_ENUM_IMPL_CHECK_N (va_args ++ [['0'], []])

/-- `#define WISE_ENUM_IMPL_PROBE(x) x, 1,`: three arguments, the last one empty. -/
def WISE_ENUM_IMPL_PROBE (x : List Char) : List (List Char) := [x, ['1'], []]

/-- `#define WISE_ENUM_IMPL_IS_PAREN_PROBE(...) WISE_ENUM_IMPL_PROBE(~)` -/
def WISE_ENUM_IMPL_IS_PAREN_PROBE (_va_args : List Char) : List (List Char) :=
  WISE_ENUM_IMPL_PROBE ['~']

/-- `WISE_ENUM_IMPL_IS_PAREN(x)`: `WISE_ENUM_IMPL_CHECK(WISE_ENUM_IMPL_IS_PAREN_PROBE x)`.
Before a parenthesised group the probe is invoked; before anything else its name stays as
text, inside a single argument. -/
def WISE_ENUM_IMPL_IS_PAREN (x : Arg) : List Char :=
  match x with
  | .paren first rest =>
    WISE_ENUM_IMPL_CHECK (WISE_ENUM_IMPL_IS_PAREN_PROBE (first ++ [','] ++ rest))
  | .plain t =>
    WISE_ENUM_IMPL_CHECK ["WISE_ENUM_IMPL_IS_PAREN_PROBE ".toList ++ t]

/-- `WISE_ENUM_IMPL_FIRST_ARG x` where `#define WISE_ENUM_IMPL_FIRST_ARG(x, ...) x`: invoked
when `x` is a parenthesised group, left as text otherwise. -/
def WISE_ENUM_IMPL_FIRST_ARG (x : Arg) : List Char :=
  match x with
  | .paren first _ => first
  | .plain t => "WISE_ENUM_IMPL_FIRST_ARG ".toList ++ t

/-- `WISE_ENUM_IMPL_ONLY_OR_FIRST(x)`:
`WISE_ENUM_IMPL_IIF(WISE_ENUM_IMPL_IS_PAREN(x))(WISE_ENUM_IMPL_FIRST_ARG x, x)`. -/
def WISE_ENUM_IMPL_ONLY_OR_FIRST (x : Arg) : List Char :=
  WISE_ENUM_IMPL_IIF (WISE_ENUM_IMPL_IS_PAREN x) (WISE_ENUM_IMPL_FIRST_ARG x) x.text

/-- `WISE_ENUM_IMPL_ENUM_INIT_2 x` where
`#define WISE_ENUM_IMPL_ENUM_INIT_2(x, ...) x = __VA_ARGS__`. -/
def WISE_ENUM_IMPL_ENUM_INIT_2 (x : Arg) : List Char :=
  match x with
  | .paren first rest => first ++ " = ".toList ++ rest
  | .plain t => "WISE_ENUM_IMPL_ENUM_INIT_2 ".toList ++ t

/-- `WISE_ENUM_IMPL_ENUM_INIT(name, x)`:
`WISE_ENUM_IMPL_IIF(WISE_ENUM_IMPL_IS_PAREN(x))(WISE_ENUM_IMPL_ENUM_INIT_2 x, x)`. -/
def WISE_ENUM_IMPL_ENUM_INIT (_name : List Char) (x : Arg) : List Char :=
  WISE_ENUM_IMPL_IIF (WISE_ENUM_IMPL_IS_PAREN x) (WISE_ENUM_IMPL_ENUM_INIT_2 x) x.text

/-- `WISE_ENUM_IMPL_ENUM_STR(x)`: `WISE_ENUM_IMPL_STR(WISE_ENUM_IMPL_ONLY_OR_FIRST(x))`. -/
def WISE_ENUM_IMPL_ENUM_STR (x : Arg) : List Char :=
  WISE_ENUM_IMPL_STR (WISE_ENUM_IMPL_ONLY_OR_FIRST x)

/-- Qualified lookup of the translation unit: `scope name x` is the value of the enumerator
`name::x`. -/
abbrev Scope := List Char → List Char → Int

/-- `WISE_ENUM_IMPL_DESC_PAIR(name, x)`:
`{ name::WISE_ENUM_IMPL_ONLY_OR_FIRST(x), WISE_ENUM_IMPL_ENUM_STR(x) }`. -/
def WISE_ENUM_IMPL_DESC_PAIR (d : Dialect) (scope : Scope) (name : List Char) (x : Arg) :
    detail.value_and_name d :=
  ⟨scope name (WISE_ENUM_IMPL_ONLY_OR_FIRST x), string_type.literal d (WISE_ENUM_IMPL_ENUM_STR x)⟩

/-- A labelled statement `case label: return result;`. -/
structure SwitchCase (d : Dialect) where
  label : Int
  result : string_type d

/-- `WISE_ENUM_IMPL_SWITCH_CASE(name, x)`:
`case name::WISE_ENUM_IMPL_ONLY_OR_FIRST(x): return WISE_ENUM_IMPL_ENUM_STR(x);`. -/
def WISE_ENUM_IMPL_SWITCH_CASE (d : Dialect) (scope : Scope) (name : List Char) (x : Arg) :
    SwitchCase d :=
  ⟨scope name (WISE_ENUM_IMPL_ONLY_OR_FIRST x), string_type.literal d (WISE_ENUM_IMPL_ENUM_STR x)⟩

/-- Whether the text has a comma outside every pair of parentheses, `depth` parentheses being
open where the text starts: in the argument list of a macro invocation such a comma separates
two arguments. -/
def has_top_level_comma : Nat → List Char → Bool
  | _, [] => false
  | depth, c :: rest =>
    if c = '(' then has_top_level_comma (depth + 1) rest
    else if c = ')' then has_top_level_comma (depth - 1) rest
    else if c = ',' ∧ depth = 0 then true
    else has_top_level_comma depth rest

/-- `WISE_ENUM_IMPL_STORAGE_2 x` where `#define WISE_ENUM_IMPL_STORAGE_2(x, y) y`. Unlike
`WISE_ENUM_IMPL_FIRST_ARG` and `WISE_ENUM_IMPL_ENUM_INIT_2` this macro is not variadic: invoked
on a group of more than two arguments it is a preprocessing error, given as `none`. Before a
plain `x` it is not invoked and stays as text. -/
def WISE_ENUM_IMPL_STORAGE_2 (x : Arg) : Option (List Char) :=
  match x with
  | .paren _ rest => if has_top_level_comma 0 rest then none else some rest
  | .plain t => some ("WISE_ENUM_IMPL_STORAGE_2 ".toList ++ t)

/-- `WISE_ENUM_IMPL_STORAGE(x)`:
`WISE_ENUM_IMPL_IIF(WISE_ENUM_IMPL_IS_PAREN(x))( : WISE_ENUM_IMPL_STORAGE_2 x, )`. The
arguments of the selected `WISE_ENUM_IMPL_IIF_c` are expanded before the selection, so an
error in `WISE_ENUM_IMPL_STORAGE_2 x` is an error of the whole. -/
def WISE_ENUM_IMPL_STORAGE (x : Arg) : Option (List Char) :=
  (WISE_ENUM_IMPL_STORAGE_2 x).map (fun y =>
    WISE_ENUM_IMPL_IIF (WISE_ENUM_IMPL_IS_PAREN x) (": ".toList ++ y) [])

/-! ## Argument counting and loops (lines 182-184, 285-1108) -/

/-- `WISE_ENUM_IMPL_RSEQ_N()`: the numbers `256, 255, ..., 1, 0`. -/
def WISE_ENUM_IMPL_RSEQ_N (_ : Unit) : List Tok :=
  (List.range 257).reverse.map Tok.num

/-- `WISE_ENUM_IMPL_ARG_N(_1, ..., _256, N, ...)`: the 257th argument `N`; fewer arguments do
not match the parameter list. -/
def WISE_ENUM_IMPL_ARG_N (args : List Tok) : Option Tok := args[256]?

/-- `#define WISE_ENUM_IMPL_NARG_(...) WISE_ENUM_IMPL_ARG_N(__VA_ARGS__)` -/
def WISE_ENUM_IMPL_NARG_ (va_args : List Tok) : Option Tok := WISE_ENUM_IMPL_ARG_N va_args

/-- `WISE_ENUM_IMPL_NARG(...)`:
`WISE_ENUM_IMPL_NARG_(__VA_ARGS__, WISE_ENUM_IMPL_RSEQ_N())`. -/
def WISE_ENUM_IMPL_NARG (va_args : List Arg) : Option Tok :=
  WISE_ENUM_IMPL_NARG_ (va_args.map Tok.arg ++ WISE_ENUM_IMPL_RSEQ_N ())

/-- The bodies of `WISE_ENUM_IMPL_LOOP_1`, `WISE_ENUM_IMPL_LOOP_2`, ...:
`WISE_ENUM_IMPL_LOOP_1(M, C, D, x)` is `M(C, x)` and `WISE_ENUM_IMPL_LOOP_n(M, C, D, x, ...)`
is `M(C, x) D() WISE_ENUM_IMPL_LOOP_(n-1)(M, C, D, __VA_ARGS__)`. The result lists the
expansions of `M` (left) and of `D` (right) in the order written; an argument list that does
not fit the parameters gives `none`. -/
def LOOP_body {α β γ δ : Type} (M : γ → α → β) (C : γ) (D : Unit → δ) :
    Nat → List α → Option (List (β ⊕ δ))
  | 0, _ => none
  | 1, [x] => some [Sum.inl (M C x)]
  | 1, _ => none
  | _ + 2, [] => none
  | n + 2, x :: va_args =>
    (LOOP_body M C D (n + 1) va_args).map (fun t => Sum.inl (M C x) :: Sum.inr (D ()) :: t)

/-- `WISE_ENUM_IMPL_LOOP_n`, which the header defines for `n` from 1 to 256. -/
def WISE_ENUM_IMPL_LOOP {α β γ δ : Type} (n : Nat) (M : γ → α → β) (C : γ) (D : Unit → δ)
    (args : List α) : Option (List (β ⊕ δ)) :=
  if 1 ≤ n ∧ n ≤ 256 then LOOP_body M C D n args else none

/-- Invocation of the name `WISE_ENUM_IMPL_CAT(WISE_ENUM_IMPL_LOOP_, num_enums)`: a loop when
`num_enums` is a number, no defined name otherwise. -/
def WISE_ENUM_IMPL_CAT_LOOP {α β γ δ : Type} (num_enums : Tok) (M : γ → α → β) (C : γ)
    (D : Unit → δ) (args : List α) : Option (List (β ⊕ δ)) :=
  match num_enums with
  | .num n => WISE_ENUM_IMPL_LOOP n M C D args
  | .arg _ => none

/-! ## Reading the expansions as C++ -/

/-- The clauses of a brace-enclosed, comma-separated list (an enumerator list or an
initializer list) written as the given expansion. `expect_clause` tells whether a clause must
come next; a `nothing` delimiter leaves no token; two clauses without a comma between them,
or a comma with no clause before it, are a syntax error. A trailing comma is accepted. -/
def comma_separated {β : Type} : Bool → List (β ⊕ Delim) → Option (List β)
  | _, [] => some []
  | expect_clause, Sum.inr Delim.nothing :: rest => comma_separated expect_clause rest
  | true, Sum.inl b :: rest => (comma_separated false rest).map (fun t => b :: t)
  | false, Sum.inl _ :: _ => none
  | false, Sum.inr Delim.comma :: rest => comma_separated true rest
  | true, Sum.inr Delim.comma :: _ => none

/-- The statements of a block written as the given expansion: a `nothing` delimiter leaves
no token, a comma between two statements is a syntax error. -/
def statement_seq {β : Type} : List (β ⊕ Delim) → Option (List β)
  | [] => some []
  | Sum.inr Delim.nothing :: rest => statement_seq rest
  | Sum.inl b :: rest => (statement_seq rest).map (fun t => b :: t)
  | Sum.inr Delim.comma :: _ => none

/-- The string returned from inside `switch (e)` with the given `case` statements, if the
control reaches one: the one whose label equals `e`. The compiler rejects a switch with two
equal labels; on such a list the first one is taken here. -/
def switch_return {d : Dialect} : List (SwitchCase d) → Int → Option (string_type d)
  | [], _ => none
  | c :: cs, e => if c.label = e then some c.result else switch_return cs e

/-! ## Generated declarations (lines 241-284) -/

/-- The two functions that `WISE_ENUM_IMPL_ADAPT_3` defines for an enum: the value returned by
`wise_enum_detail_array(Tag<name>)`, and the `case` statements of the switch of
`wise_enum_detail_to_string(T e, Tag<name>)`, with the qualifier put before both and the
`name` of the tag type `Tag<name>` that both take. -/
structure Reflection (d : Dialect) where
  friendly : List Char
  tag : List Char
  wise_enum_detail_array : List (detail.value_and_name d)
  to_string_cases : List (SwitchCase d)

/-- Declarations written between `namespace a { namespace b {` and `} }`: the names of the
namespaces opened, the outermost first, and what is declared inside. -/
structure InNamespace (α : Type) where
  path : List (List Char)
  body : α

/-- The enum declaration written by `WISE_ENUM_IMPL_3`: `type name storage { enumerators };`. -/
structure EnumDeclaration where
  type : List Char
  name : List Char
  storage : List Char
  enumerators : List (List Char)
  deriving DecidableEq

/-- `WISE_ENUM_IMPL_ADAPT_3(name, friendly, num_enums, loop, ...)`. The parameter `loop` is the
name pasted by the caller, given by its numeric suffix. The array has type
`std::array<value_and_name<name>, num_enums>` and is initialised from the clauses of
`loop(WISE_ENUM_IMPL_DESC_PAIR, name, WISE_ENUM_IMPL_COMMA, __VA_ARGS__)`: more clauses than
`num_enums` do not compile, missing ones are value-initialised. The switch holds the statements
of `loop(WISE_ENUM_IMPL_SWITCH_CASE, name, WISE_ENUM_IMPL_NOTHING, __VA_ARGS__)`. -/
def WISE_ENUM_IMPL_ADAPT_3 (d : Dialect) (scope : Scope) (name friendly : List Char)
    (num_enums loop : Tok) (va_args : List Arg) : Option (Reflection d) :=
  match num_enums with
  | .arg _ => none
  | .num size =>
    match (WISE_ENUM_IMPL_CAT_LOOP loop (WISE_ENUM_IMPL_DESC_PAIR d scope) name
            WISE_ENUM_IMPL_COMMA va_args).bind (comma_separated true),
          (WISE_ENUM_IMPL_CAT_LOOP loop (WISE_ENUM_IMPL_SWITCH_CASE d scope) name
            WISE_ENUM_IMPL_NOTHING va_args).bind statement_seq with
    | some clauses, some cases =>
      if clauses.length ≤ size then
        some ⟨friendly, name,
          clauses ++ List.replicate (size - clauses.length) ⟨0, string_type.default d⟩,
          cases⟩
      else none
    | _, _ => none

/-- `WISE_ENUM_IMPL_ADAPT_2(name, num_enums, ...)`: `WISE_ENUM_IMPL_ADAPT_3` with an empty
qualifier and the loop named after `num_enums`. -/
def WISE_ENUM_IMPL_ADAPT_2 (d : Dialect) (scope : Scope) (name : List Char) (num_enums : Tok)
    (va_args : List Arg) : Option (Reflection d) :=
  WISE_ENUM_IMPL_ADAPT_3 d scope name [] num_enums num_enums va_args

/-- `WISE_ENUM_IMPL_ADAPT(name, ...)`: `namespace wise_enum { namespace detail {`, then
`WISE_ENUM_IMPL_ADAPT_2(name, WISE_ENUM_IMPL_NARG(__VA_ARGS__), __VA_ARGS__)`, then `} }`. -/
def WISE_ENUM_IMPL_ADAPT (d : Dialect) (scope : Scope) (name : List Char)
    (va_args : List Arg) : Option (InNamespace (Reflection d)) :=
  ((WISE_ENUM_IMPL_NARG va_args).bind (fun num_enums =>
    WISE_ENUM_IMPL_ADAPT_2 d scope name num_enums va_args)).map
    (fun r => ⟨["wise_enum".toList, "detail".toList], r⟩)

/-- `WISE_ENUM_IMPL_3(type, name, storage, friendly, num_enums, loop, ...)`: the declaration
`type name storage { loop(WISE_ENUM_IMPL_ENUM_INIT, _, WISE_ENUM_IMPL_COMMA, __VA_ARGS__) };`
followed by `WISE_ENUM_IMPL_ADAPT_3(name, friendly, num_enums, loop, __VA_ARGS__)`. -/
def WISE_ENUM_IMPL_3 (d : Dialect) (scope : Scope) (type name storage friendly : List Char)
    (num_enums loop : Tok) (va_args : List Arg) : Option (EnumDeclaration × Reflection d) :=
  match (WISE_ENUM_IMPL_CAT_LOOP loop WISE_ENUM_IMPL_ENUM_INIT ['_']
            WISE_ENUM_IMPL_COMMA va_args).bind (comma_separated true),
        WISE_ENUM_IMPL_ADAPT_3 d scope name friendly num_enums loop va_args with
  | some enumerators, some r => some (⟨type, name, storage, enumerators⟩, r)
  | _, _ => none

/-- `WISE_ENUM_IMPL_2(type, name, storage, friendly, num_enums, ...)`: `WISE_ENUM_IMPL_3` with
the loop named after `num_enums`. -/
def WISE_ENUM_IMPL_2 (d : Dialect) (scope : Scope) (type name storage friendly : List Char)
    (num_enums : Tok) (va_args : List Arg) : Option (EnumDeclaration × Reflection d) :=
  WISE_ENUM_IMPL_3 d scope type name storage friendly num_enums num_enums va_args

/-- `WISE_ENUM_IMPL(type, name_storage, friendly, ...)`: `WISE_ENUM_IMPL_2` with
`WISE_ENUM_IMPL_ONLY_OR_FIRST(name_storage)`, `WISE_ENUM_IMPL_STORAGE(name_storage)` and
`WISE_ENUM_IMPL_NARG(__VA_ARGS__)`. -/
def WISE_ENUM_IMPL (d : Dialect) (scope : Scope) (type : List Char) (name_storage : Arg)
    (friendly : List Char) (va_args : List Arg) : Option (EnumDeclaration × Reflection d) :=
  (WISE_ENUM_IMPL_NARG va_args).bind (fun num_enums =>
    (WISE_ENUM_IMPL_STORAGE name_storage).bind (fun storage =>
      WISE_ENUM_IMPL_2 d scope type (WISE_ENUM_IMPL_ONLY_OR_FIRST name_storage)
        storage friendly num_enums va_args))

/-! ## Public interface (lines 1131-1212) -/

/-- `WISE_ENUM(name, ...)`: `WISE_ENUM_IMPL(enum, name, , __VA_ARGS__)`. -/
def WISE_ENUM (d : Dialect) (scope : Scope) (name : Arg) (va_args : List Arg) :
    Option (EnumDeclaration × Reflection d) :=
  WISE_ENUM_IMPL d scope "enum".toList name [] va_args

/-- `WISE_ENUM_CLASS(name, ...)`: `WISE_ENUM_IMPL(enum class, name, , __VA_ARGS__)`. -/
def WISE_ENUM_CLASS (d : Dialect) (scope : Scope) (name : Arg) (va_args : List Arg) :
    Option (EnumDeclaration × Reflection d) :=
  WISE_ENUM_IMPL d scope "enum class".toList name [] va_args

/-- `WISE_ENUM_MEMBER(name, ...)`: `WISE_ENUM_IMPL(enum, name, friend, __VA_ARGS__)`. -/
def WISE_ENUM_MEMBER (d : Dialect) (scope : Scope) (name : Arg) (va_args : List Arg) :
    Option (EnumDeclaration × Reflection d) :=
  WISE_ENUM_IMPL d scope "enum".toList name "friend".toList va_args

/-- `WISE_ENUM_CLASS_MEMBER(name, ...)`:
`WISE_ENUM_IMPL(enum class, name, friend, __VA_ARGS__)`. -/
def WISE_ENUM_CLASS_MEMBER (d : Dialect) (scope : Scope) (name : Arg) (va_args : List Arg) :
    Option (EnumDeclaration × Reflection d) :=
  WISE_ENUM_IMPL d scope "enum class".toList name "friend".toList va_args

/-- `WISE_ENUM_ADAPT(name, ...)`: `WISE_ENUM_IMPL_ADAPT(name, __VA_ARGS__)`. -/
def WISE_ENUM_ADAPT (d : Dialect) (scope : Scope) (name : List Char) (va_args : List Arg) :
    Option (InNamespace (Reflection d)) :=
  WISE_ENUM_IMPL_ADAPT d scope name va_args

/-- `wise_enum_detail_to_string(T e, Tag<name>)`: `switch (e) { cases } return {};`. -/
def wise_enum_detail_to_string {d : Dialect} (r : Reflection d) (e : Int) : string_type d :=
  match switch_return r.to_string_cases e with
  | some s => s
  | none => string_type.default d

/-- `to_string(T t)`: `return wise_enum_detail_to_string(t, detail::Tag<T>{});`, the tag
selecting the function generated for `T`. -/
def to_string {d : Dialect} (r : Reflection d) (t : Int) : string_type d :=
  wise_enum_detail_to_string r t

/-- `enumerators<T>::range`: `wise_enum_detail_array(detail::Tag<T>{})`. -/
def enumerators.range {d : Dialect} (r : Reflection d) : List (detail.value_and_name d) :=
  r.wise_enum_detail_array

/-- `enumerators<T>::size`: `range.size()`. -/
def enumerators.size {d : Dialect} (r : Reflection d) : Nat :=
  (enumerators.range r).length

/-- `std::find_if(first, last, pred)`: the first position whose element satisfies `pred`, a
position being the part of the list that starts there and `last` the empty part. -/
def find_if {α : Type} (pred : α → Option Bool) : List α → Option (List α)
  | [] => some []
  | x :: rest =>
    match pred x with
    | none => none
    | some true => some (x :: rest)
    | some false => find_if pred rest

/-- `from_string(string_type s)` (lines 1201-1212): `find_if` over `enumerators<T>::range` with
`detail::compare(x.name, s)`; `return {};` at the end of the range, `return it->value;`
otherwise. -/
def from_string {d : Dialect} (r : Reflection d) (s : string_type d) :
    Option (optional_type d) :=
  match find_if (fun x => detail.compare d x.name s) (enumerators.range r) with
  | none => none
  | some [] => some (optional_type.empty d)
  | some (x :: _) => some (optional_type.of d x.value)

/-! ## `compact_optional` (lines 1216-1305) -/

/-- The loop of `is_enum_value`, from the index it has reached to the end of the range:
`if (static_cast<std::underlying_type_t<T>>(r[i].value) == enum_integral) return true;`, then
`return false;` after the last index. -/
def is_enum_value_from {d : Dialect} : List (detail.value_and_name d) → Int → Bool
  | [], _ => false
  | x :: rest, enum_integral =>
    if x.value = enum_integral then true else is_enum_value_from rest enum_integral

/-- `is_enum_value<T>(enum_integral)`: the loop over `range<T>` from index 0. -/
def is_enum_value {d : Dialect} (r : Reflection d) (enum_integral : Int) : Bool :=
  is_enum_value_from (enumerators.range r) enum_integral

/-- `class compact_optional`: the member `integral_type m_storage`. The template argument
`invalid` is a parameter of each member function. -/
structure compact_optional where
  m_storage : Int
  deriving DecidableEq

namespace compact_optional

/-- The second `static_assert` of the class: `!is_enum_value<T>(invalid)`. -/
def static_assert_invalid {d : Dialect} (r : Reflection d) (invalid : Int) : Bool :=
  !is_enum_value r invalid

/-- `compact_optional() = default;` with `integral_type m_storage = invalid;`. -/
def default (invalid : Int) : compact_optional := ⟨invalid⟩

/-- `compact_optional(T t) : m_storage(static_cast<integral_type>(t)) {}`. -/
def of (t : Int) : compact_optional := ⟨t⟩

/-- `operator*`: `return static_cast<T>(m_storage);`. -/
def deref (o : compact_optional) : Int := o.m_storage

/-- `has_value()`: `return m_storage != invalid;`. -/
def has_value (invalid : Int) (o : compact_optional) : Bool := o.m_storage != invalid

/-- `explicit operator bool`: `return m_storage != invalid;`. -/
def to_bool (invalid : Int) (o : compact_optional) : Bool := o.m_storage != invalid

/-- `value()`: `if (m_storage != invalid) return static_cast<T>(m_storage); else throw
bad_optional_access{};`. -/
def value (invalid : Int) (o : compact_optional) : Except bad_optional_access Int :=
  if o.m_storage != invalid then .ok o.m_storage else .error bad_optional_access.mk

/-- `value_or(U &&u)`, a non-const member: `if (has_value()) return static_cast<T>(m_storage);
else return std::forward<U>(u);`. The result is what the call produces and the object after
the call. -/
def value_or (invalid : Int) (o : compact_optional) (u : Int) :
    Except bad_optional_access Int × compact_optional :=
  if has_value invalid o then (.ok o.m_storage, o) else (.ok u, o)

/-- `reset()`: `m_storage = invalid;`. -/
def reset (invalid : Int) (_o : compact_optional) : compact_optional := ⟨invalid⟩

end compact_optional

/-! ## Specification vocabulary -/

/-- The string a `string_type` denotes: the characters before the first NUL of the memory
pointed to (nothing for a null pointer or for memory without a NUL), or the characters of the
view. -/
def string_type.chars : (d : Dialect) → string_type d → Option (List Char)
  | .other, CharPtr.null => none
  | .other, CharPtr.ptr mem =>
    if NUL ∈ mem then some (mem.takeWhile (fun c => c != NUL)) else none
  | .cpp17, s => some (s : List Char)

/-- The enumerator list `x1..xn` has between 1 and 256 entries. -/
def enumerator_count_ok (va_args : List Arg) : Prop :=
  1 ≤ va_args.length ∧ va_args.length ≤ 256

instance (va_args : List Arg) : Decidable (enumerator_count_ok va_args) := by
  unfold enumerator_count_ok; infer_instance

/-- The identifier of an entry of the enumerator list: the entry itself, or the first
element of the pair `(identifier, initializer)`. -/
def Arg.identifier : Arg → List Char
  | .plain x => x
  | .paren first _ => first

/-- The value of the enumerator written as the entry `x` of the list of the enum `name`. -/
def enumerator_value (scope : Scope) (name : List Char) (x : Arg) : Int :=
  scope name x.identifier

/-- The textual identifier of the enumerator written as the entry `x`, as a `string_type`. -/
def enumerator_name (d : Dialect) (x : Arg) : string_type d :=
  string_type.literal d x.identifier

/-- The reflection `r` was generated for the enum `name` and the enumerator list `va_args`:
by `WISE_ENUM_ADAPT(name, va_args)`, or by a declaration
`WISE_ENUM_IMPL(type, name_storage, friendly, va_args)` whose first argument names `name`
(which `WISE_ENUM`, `WISE_ENUM_CLASS`, `WISE_ENUM_MEMBER` and `WISE_ENUM_CLASS_MEMBER` are). -/
def generated_by (d : Dialect) (scope : Scope) (name : List Char) (va_args : List Arg)
    (r : Reflection d) : Prop :=
  (∃ path, WISE_ENUM_ADAPT d scope name va_args = some ⟨path, r⟩) ∨
    ∃ (type : List Char) (name_storage : Arg) (friendly : List Char) (decl : EnumDeclaration),
      name_storage.identifier = name ∧
      WISE_ENUM_IMPL d scope type name_storage friendly va_args = some (decl, r)

/-! ## Type trait `is_wise_enum` (lines 146-155, 1190-1197) -/

/-- One invocation of a public macro in a translation unit: a declaration
`WISE_ENUM_IMPL(type, name_storage, friendly, ...)` (which `WISE_ENUM`, `WISE_ENUM_CLASS`,
`WISE_ENUM_MEMBER` and `WISE_ENUM_CLASS_MEMBER` are), or `WISE_ENUM_ADAPT(name, ...)`. -/
inductive Invocation where
  | declare (type : List Char) (name_storage : Arg) (friendly : List Char) (va_args : List Arg)
  | adapt (name : List Char) (va_args : List Arg)

/-- The functions that an invocation generates, if it compiles. -/
def Invocation.reflection (d : Dialect) (scope : Scope) : Invocation → Option (Reflection d)
  | .declare type name_storage friendly va_args =>
    (WISE_ENUM_IMPL d scope type name_storage friendly va_args).map (fun p => p.2)
  | .adapt name va_args => (WISE_ENUM_ADAPT d scope name va_args).map (fun a => a.body)

namespace detail

end detail

/-- An integral type, as the underlying type of an enum: its signedness and its width. -/
structure IntegralType where
  is_signed : Bool
  bits : Nat
  deriving DecidableEq

/-- The values that an object of an integral type can hold. -/
def IntegralType.holds (I : IntegralType) (v : Int) : Prop :=
  if I.is_signed then -(2 ^ (I.bits - 1) : Int) ≤ v ∧ v < 2 ^ (I.bits - 1)
  else 0 ≤ v ∧ v < 2 ^ I.bits

instance (I : IntegralType) (v : Int) : Decidable (I.holds v) := by
  unfold IntegralType.holds; infer_instance

/-- The standard `std::numeric_limits<I>::max()`. -/
def numeric_limits_max (I : IntegralType) : Int :=
  if I.is_signed then 2 ^ (I.bits - 1) - 1 else 2 ^ I.bits - 1

/-- The default template argument of `compact_optional`:
`invalid = std::numeric_limits<std::underlying_type_t<T>>::max()`. -/
def compact_optional.invalid_default (underlying_type : IntegralType) : Int :=
  numeric_limits_max underlying_type

/-! ## Specification vocabulary for the later claims -/

/-- The reference `Option` value that a `wise_enum::optional` stands for: the stored value
when the optional is active, nothing otherwise. -/
def optional.held (o : optional) : Option Int :=
  if o.m_active then some o.m_t else none

/-- The enumerator-definition of the C++ grammar that an entry of the enumerator list asks
for: `identifier`, or `identifier = initializer`. -/
def Arg.enumerator_definition : Arg → List Char
  | .plain x => x
  | .paren first rest => first ++ " = ".toList ++ rest

/-- All that an invocation of a public macro writes: the namespaces it opens around the
generated functions, the enum declaration if it writes one, and the generated functions. -/
structure Expansion (d : Dialect) where
  namespaces : List (List Char)
  declaration : Option EnumDeclaration
  reflection : Reflection d

/-- The expansion of a declaring macro: no namespace is opened. -/
def Expansion.of_declaration {d : Dialect} (p : EnumDeclaration × Reflection d) : Expansion d :=
  ⟨[], some p.1, p.2⟩

/-- The expansion of `WISE_ENUM_ADAPT`: no enum is declared. -/
def Expansion.of_adapt {d : Dialect} (a : InNamespace (Reflection d)) : Expansion d :=
  ⟨a.path, none, a.body⟩

/-- Two expansions differ in nothing but the enum keyword, the friend qualifier and whether
the enum is declared. -/
def Expansion.differ_only_in_keyword_friend_declared {d : Dialect} (e1 e2 : Expansion d) :
    Prop :=
  e1.namespaces = e2.namespaces ∧
  e1.reflection.tag = e2.reflection.tag ∧
  e1.reflection.wise_enum_detail_array = e2.reflection.wise_enum_detail_array ∧
  e1.reflection.to_string_cases = e2.reflection.to_string_cases ∧
  ∀ d1 d2, e1.declaration = some d1 → e2.declaration = some d2 →
    d1.name = d2.name ∧ d1.storage = d2.storage ∧ d1.enumerators = d2.enumerators

/-- The first argument of a declaring macro is the name of the enum, or a pair
`(name, storage)`: a group of exactly two arguments, so `storage` has no comma outside
parentheses. -/
def first_argument_ok : Arg → Prop
  | .plain _ => True
  | .paren _ storage => has_top_level_comma 0 storage = false

instance (x : Arg) : Decidable (first_argument_ok x) := by
  cases x <;> unfold first_argument_ok <;> infer_instance

/-- The underlying-type clause that the first argument of a declaring macro asks for: none
for a name, `: storage` for a pair `(name, storage)`. -/
def Arg.storage_clause : Arg → List Char
  | .plain _ => []
  | .paren _ storage => ": ".toList ++ storage

namespace detail

/-- The number of times that `s1++, s2++` runs in the loop of `detail::strcmp`: the recursion
of `strcmp_mem`, counting the advances. Every test of the loop condition and the comparisons
after the loop read `*s1` and `*s2` at the position reached, so this number is also the
greatest index at which either string is read. -/
def strcmp_advances : List Char → List Char → Option Nat
  | [], _ => none
  | _ :: _, [] => none
  | c1 :: r1, c2 :: r2 =>
    if c1 != NUL && c1 == c2 then (strcmp_advances r1 r2).map (fun k => k + 1)
    else some 0

end detail

/-- The value of a `char` that holds the byte `c`: where plain `char` is signed the bytes
from 128 to 255 are the values from -128 to -1, and every other `c` has its code as value. -/
def char_value (char_is_signed : Bool) (c : Char) : Int :=
  if char_is_signed && decide (128 ≤ c.toNat) && decide (c.toNat < 256) then
    (c.toNat : Int) - 256
  else (c.toNat : Int)

namespace detail

/-- The loop and the final comparisons of `detail::strcmp` (lines 158-167) for a given
signedness of plain `char`: `*s1 == *s2` compares the two `char`, `*s1 < *s2` and `*s1 > *s2`
compare their values. -/
def strcmp_chars (char_is_signed : Bool) : List Char → List Char → Option Int
  | [], _ => none
  | _ :: _, [] => none
  | c1 :: r1, c2 :: r2 =>
    if c1 != NUL && c1 == c2 then strcmp_chars char_is_signed r1 r2
    else if char_value char_is_signed c1 < char_value char_is_signed c2 then some (-1)
    else if char_value char_is_signed c1 > char_value char_is_signed c2 then some 1
    else some 0

end detail

/-- The sign of the difference of the `char` values at the first position where two
NUL-terminated strings differ, the strings being given by their characters before the NUL and
the NUL counting as a character of value 0; it is 0 when the strings are equal. -/
def first_difference_sign (char_is_signed : Bool) : List Char → List Char → Int
  | [], [] => 0
  | [], b :: _ => Int.sign (0 - char_value char_is_signed b)
  | a :: _, [] => Int.sign (char_value char_is_signed a - 0)
  | a :: x, b :: y =>
    if a = b then first_difference_sign char_is_signed x y
    else Int.sign (char_value char_is_signed a - char_value char_is_signed b)

/-- The length of the longest common prefix of two character sequences. -/
def common_prefix_length : List Char → List Char → Nat
  | a :: x, b :: y => if a = b then common_prefix_length x y + 1 else 0
  | _, _ => 0

/-- The sign of the lexicographic comparison of two character sequences, as the claim on
`strcmp` words it: decided by the character values at the first position where the sequences
differ, a proper prefix coming before the longer sequence. -/
def lexicographic_sign : List Char → List Char → Int
  | [], [] => 0
  | [], _ :: _ => -1
  | _ :: _, [] => 1
  | a :: x, b :: y =>
    if a < b then -1 else if b < a then 1 else lexicographic_sign x y

/-- An enumerator list of 257 entries: 256 times `A`, then `LAST`. -/
def long_args : List Arg :=
  List.replicate 256 (Arg.plain "A".toList) ++ [Arg.plain "LAST".toList]

/-! ## A concrete enum -/

/-- The enumerator list `RED, (GREEN, 4), BLUE`. -/
def color_args : List Arg :=
  [Arg.plain "RED".toList, Arg.paren "GREEN".toList "4".toList, Arg.plain "BLUE".toList]

/-- Qualified lookup in a translation unit that declares
`enum class Color : int { RED, GREEN = 4, BLUE }`. -/
def color_scope : Scope := fun _ x =>
  if x = "RED".toList then 0 else if x = "GREEN".toList then 4 else 5

/-- The reflection of `Color` with `const char *` names. -/
def color_reflection : Reflection Dialect.other :=
  ⟨[], "Color".toList,
   [⟨0, CharPtr.ptr "RED\x00".toList⟩, ⟨4, CharPtr.ptr "GREEN\x00".toList⟩,
    ⟨5, CharPtr.ptr "BLUE\x00".toList⟩],
   [⟨0, CharPtr.ptr "RED\x00".toList⟩, ⟨4, CharPtr.ptr "GREEN\x00".toList⟩,
    ⟨5, CharPtr.ptr "BLUE\x00".toList⟩]⟩

/-! ## Lemmas: counting and loops -/

theorem RSEQ_N_getElem (k : Nat) (hk : k ≤ 256) :
    (WISE_ENUM_IMPL_RSEQ_N ())[k]? = some (Tok.num (256 - k)) := by
  unfold WISE_ENUM_IMPL_RSEQ_N
  rw [List.getElem?_map, List.getElem?_reverse (by simp; omega)]
  simp only [List.length_range]
  rw [List.getElem?_range (by omega)]
  simp

theorem NARG_eq (va_args : List Arg) (h : va_args.length ≤ 256) :
    WISE_ENUM_IMPL_NARG va_args = some (Tok.num va_args.length) := by
  unfold WISE_ENUM_IMPL_NARG WISE_ENUM_IMPL_NARG_ WISE_ENUM_IMPL_ARG_N
  rw [List.getElem?_append_right (by simpa using h)]
  rw [List.length_map, RSEQ_N_getElem _ (by omega)]
  congr 2
  omega

theorem LOOP_body_eq {α β γ δ : Type} (M : γ → α → β) (C : γ) (D : Unit → δ) (x : α)
    (xs : List α) :
    LOOP_body M C D (xs.length + 1) (x :: xs)
      = some (List.intersperse (Sum.inr (D ())) ((x :: xs).map (fun a => Sum.inl (M C a)))) := by
  induction xs generalizing x with
  | nil => simp [LOOP_body]
  | cons y ys ih =>
    simp only [List.length_cons, LOOP_body]
    rw [ih y]
    simp

theorem LOOP_eq {α β γ δ : Type} (M : γ → α → β) (C : γ) (D : Unit → δ) (xs : List α)
    (h1 : 1 ≤ xs.length) (h2 : xs.length ≤ 256) :
    WISE_ENUM_IMPL_LOOP xs.length M C D xs
      = some (List.intersperse (Sum.inr (D ())) (xs.map (fun a => Sum.inl (M C a)))) := by
  unfold WISE_ENUM_IMPL_LOOP
  rw [if_pos ⟨h1, h2⟩]
  cases xs with
  | nil => simp at h1
  | cons x xs => exact LOOP_body_eq M C D x xs

theorem comma_separated_intersperse {α β : Type} (f : α → β) (xs : List α) :
    comma_separated true
        (List.intersperse (Sum.inr Delim.comma) (xs.map (fun a => Sum.inl (f a))))
      = some (xs.map f) := by
  induction xs with
  | nil => simp [comma_separated]
  | cons x xs ih =>
    cases xs with
    | nil => simp [comma_separated]
    | cons y ys =>
      simp only [List.map_cons, List.intersperse, comma_separated] at ih ⊢
      rw [ih]
      simp

theorem statement_seq_intersperse {α β : Type} (f : α → β) (xs : List α) :
    statement_seq
        (List.intersperse (Sum.inr Delim.nothing) (xs.map (fun a => Sum.inl (f a))))
      = some (xs.map f) := by
  induction xs with
  | nil => simp [statement_seq]
  | cons x xs ih =>
    cases xs with
    | nil => simp [statement_seq]
    | cons y ys =>
      simp only [List.map_cons, List.intersperse, statement_seq] at ih ⊢
      rw [ih]
      simp

/-! ## Lemmas: what the macros generate -/

theorem IS_PAREN_plain (t : List Char) : WISE_ENUM_IMPL_IS_PAREN (Arg.plain t) = ['0'] := by
  simp [WISE_ENUM_IMPL_IS_PAREN, WISE_ENUM_IMPL_CHECK, WISE_ENUM_IMPL_CHECK_N]

theorem IS_PAREN_paren (a b : List Char) : WISE_ENUM_IMPL_IS_PAREN (Arg.paren a b) = ['1'] := by
  simp [WISE_ENUM_IMPL_IS_PAREN, WISE_ENUM_IMPL_CHECK, WISE_ENUM_IMPL_CHECK_N,
    WISE_ENUM_IMPL_IS_PAREN_PROBE, WISE_ENUM_IMPL_PROBE]

theorem ONLY_OR_FIRST_plain (t : List Char) :
    WISE_ENUM_IMPL_ONLY_OR_FIRST (Arg.plain t) = t := by
  simp [WISE_ENUM_IMPL_ONLY_OR_FIRST, IS_PAREN_plain, WISE_ENUM_IMPL_IIF, Arg.text]

theorem ONLY_OR_FIRST_paren (a b : List Char) :
    WISE_ENUM_IMPL_ONLY_OR_FIRST (Arg.paren a b) = a := by
  simp [WISE_ENUM_IMPL_ONLY_OR_FIRST, IS_PAREN_paren, WISE_ENUM_IMPL_IIF,
    WISE_ENUM_IMPL_FIRST_ARG]

theorem ADAPT_3_eq (d : Dialect) (scope : Scope) (name friendly : List Char)
    (va_args : List Arg) (h : enumerator_count_ok va_args) :
    WISE_ENUM_IMPL_ADAPT_3 d scope name friendly (Tok.num va_args.length)
        (Tok.num va_args.length) va_args
      = some ⟨friendly, name, va_args.map (WISE_ENUM_IMPL_DESC_PAIR d scope name),
          va_args.map (WISE_ENUM_IMPL_SWITCH_CASE d scope name)⟩ := by
  simp only [WISE_ENUM_IMPL_ADAPT_3, WISE_ENUM_IMPL_CAT_LOOP, LOOP_eq _ _ _ _ h.1 h.2,
    WISE_ENUM_IMPL_COMMA, WISE_ENUM_IMPL_NOTHING, Option.some_bind,
    comma_separated_intersperse, statement_seq_intersperse]
  simp

theorem ADAPT_eq (d : Dialect) (scope : Scope) (name : List Char)
    (va_args : List Arg) (h : enumerator_count_ok va_args) :
    WISE_ENUM_IMPL_ADAPT d scope name va_args
      = some ⟨["wise_enum".toList, "detail".toList],
          ⟨[], name, va_args.map (WISE_ENUM_IMPL_DESC_PAIR d scope name),
            va_args.map (WISE_ENUM_IMPL_SWITCH_CASE d scope name)⟩⟩ := by
  simp only [WISE_ENUM_IMPL_ADAPT, NARG_eq va_args h.2, Option.some_bind,
    WISE_ENUM_IMPL_ADAPT_2, ADAPT_3_eq d scope name [] va_args h, Option.map_some']

theorem IMPL_eq (d : Dialect) (scope : Scope) (type : List Char) (name_storage : Arg)
    (friendly : List Char) (va_args : List Arg) (h : enumerator_count_ok va_args)
    (storage : List Char) (hst : WISE_ENUM_IMPL_STORAGE name_storage = some storage) :
    WISE_ENUM_IMPL d scope type name_storage friendly va_args
      = some (⟨type, WISE_ENUM_IMPL_ONLY_OR_FIRST name_storage,
                storage,
                va_args.map (WISE_ENUM_IMPL_ENUM_INIT ['_'])⟩,
              ⟨friendly, WISE_ENUM_IMPL_ONLY_OR_FIRST name_storage,
                va_args.map
                  (WISE_ENUM_IMPL_DESC_PAIR d scope (WISE_ENUM_IMPL_ONLY_OR_FIRST name_storage)),
                va_args.map
                  (WISE_ENUM_IMPL_SWITCH_CASE d scope
                    (WISE_ENUM_IMPL_ONLY_OR_FIRST name_storage))⟩) := by
  simp only [WISE_ENUM_IMPL, NARG_eq va_args h.2, hst, Option.some_bind, WISE_ENUM_IMPL_2,
    WISE_ENUM_IMPL_3, ADAPT_3_eq d scope _ friendly va_args h, WISE_ENUM_IMPL_CAT_LOOP,
    LOOP_eq _ _ _ _ h.1 h.2, WISE_ENUM_IMPL_COMMA, comma_separated_intersperse]

theorem IMPL_none_of_storage (d : Dialect) (scope : Scope) (type : List Char)
    (name_storage : Arg) (friendly : List Char) (va_args : List Arg)
    (hst : WISE_ENUM_IMPL_STORAGE name_storage = none) :
    WISE_ENUM_IMPL d scope type name_storage friendly va_args = none := by
  unfold WISE_ENUM_IMPL
  rw [hst]
  cases WISE_ENUM_IMPL_NARG va_args <;> rfl

theorem IMPL_some_storage (d : Dialect) (scope : Scope) (type : List Char)
    (name_storage : Arg) (friendly : List Char) (va_args : List Arg)
    (p : EnumDeclaration × Reflection d)
    (h : WISE_ENUM_IMPL d scope type name_storage friendly va_args = some p) :
    ∃ storage, WISE_ENUM_IMPL_STORAGE name_storage = some storage := by
  cases hst : WISE_ENUM_IMPL_STORAGE name_storage with
  | none =>
    rw [IMPL_none_of_storage d scope type name_storage friendly va_args hst] at h
    exact absurd h (by simp)
  | some storage => exact ⟨storage, rfl⟩

theorem STORAGE_plain (t : List Char) : WISE_ENUM_IMPL_STORAGE (Arg.plain t) = some [] := by
  simp [WISE_ENUM_IMPL_STORAGE, WISE_ENUM_IMPL_STORAGE_2, IS_PAREN_plain, WISE_ENUM_IMPL_IIF]

theorem STORAGE_paren (a b : List Char) (h : has_top_level_comma 0 b = false) :
    WISE_ENUM_IMPL_STORAGE (Arg.paren a b) = some (": ".toList ++ b) := by
  simp [WISE_ENUM_IMPL_STORAGE, WISE_ENUM_IMPL_STORAGE_2, IS_PAREN_paren, WISE_ENUM_IMPL_IIF, h]

theorem STORAGE_of_ok (x : Arg) (h : first_argument_ok x) :
    WISE_ENUM_IMPL_STORAGE x = some x.storage_clause := by
  cases x with
  | plain t => exact STORAGE_plain t
  | paren a b => exact STORAGE_paren a b h

theorem switch_return_map {d : Dialect} {α : Type} (f : α → SwitchCase d) (xs : List α)
    (hnd : (xs.map (fun a => (f a).label)).Nodup) (i : Nat) (hi : i < xs.length) :
    switch_return (xs.map f) (f (xs.get ⟨i, hi⟩)).label = some (f (xs.get ⟨i, hi⟩)).result := by
  induction xs generalizing i with
  | nil => simp at hi
  | cons x xs ih =>
    rw [List.map_cons, List.nodup_cons] at hnd
    cases i with
    | zero => simp [switch_return]
    | succ j =>
      have hj : j < xs.length := by simpa using hi
      have hne : (f x).label ≠ (f (xs.get ⟨j, hj⟩)).label := by
        intro heq
        apply hnd.1
        rw [heq]
        exact List.mem_map.mpr ⟨xs.get ⟨j, hj⟩, List.get_mem _ _ _, rfl⟩
      simp only [List.map_cons, switch_return, List.get_cons_succ, if_neg hne]
      exact ih hnd.2 j hj

theorem switch_return_none {d : Dialect} (cs : List (SwitchCase d)) (e : Int)
    (h : ∀ c ∈ cs, c.label ≠ e) : switch_return cs e = none := by
  induction cs with
  | nil => rfl
  | cons c cs ih =>
    simp only [switch_return, if_neg (h c (List.mem_cons_self _ _))]
    exact ih (fun c' hc' => h c' (List.mem_cons_of_mem _ hc'))

/-! ## Lemmas: string comparison -/

theorem not_lt_NUL (c : Char) : ¬ c < NUL := by
  intro h
  rw [Char.lt_def] at h
  have h0 : (NUL).val = 0 := by decide
  rw [h0] at h
  have h1 := UInt32.lt_def.mp h
  rw [BitVec.lt_def] at h1
  simp at h1

theorem NUL_lt (c : Char) (h : c ≠ NUL) : NUL < c := by
  rcases lt_trichotomy NUL c with h1 | h1 | h1
  · exact h1
  · exact absurd h1.symm h
  · exact absurd h1 (not_lt_NUL c)

theorem strcmp_mem_terminated (x : List Char) :
    ∀ (y t1 t2 : List Char), NUL ∉ x → NUL ∉ y →
      ∃ r, detail.strcmp_mem (x ++ NUL :: t1) (y ++ NUL :: t2) = some r ∧ (r = 0 ↔ x = y) := by
  induction x with
  | nil =>
    intro y t1 t2 _ hy
    cases y with
    | nil =>
      refine ⟨0, ?_, by simp⟩
      simp [detail.strcmp_mem, lt_irrefl]
    | cons b y =>
      have hb : b ≠ NUL := fun h => hy (by simp [h])
      refine ⟨-1, ?_, by simp⟩
      simp [detail.strcmp_mem, NUL_lt b hb]
  | cons a x ih =>
    intro y t1 t2 hx hy
    have ha : a ≠ NUL := fun h => hx (by simp [h])
    have hx2 : NUL ∉ x := fun h => hx (List.mem_cons_of_mem _ h)
    cases y with
    | nil =>
      refine ⟨1, ?_, by simp⟩
      simp [detail.strcmp_mem, ha, not_lt_NUL a, NUL_lt a ha]
    | cons b y =>
      have hy2 : NUL ∉ y := fun h => hy (List.mem_cons_of_mem _ h)
      by_cases hab : a = b
      · subst hab
        obtain ⟨r, hr, hiff⟩ := ih y t1 t2 hx2 hy2
        refine ⟨r, ?_, by simp [hiff]⟩
        simp [detail.strcmp_mem, ha, hr]
      · rcases lt_or_gt_of_ne hab with hlt | hgt
        · refine ⟨-1, ?_, by simp [hab]⟩
          simp [detail.strcmp_mem, hab, hlt]
        · refine ⟨1, ?_, by simp [hab]⟩
          simp [detail.strcmp_mem, hab, hgt, lt_asymm hgt]

theorem mem_split_at_NUL (mem : List Char) (h : NUL ∈ mem) :
    ∃ rest, mem = mem.takeWhile (fun c => c != NUL) ++ NUL :: rest
      ∧ NUL ∉ mem.takeWhile (fun c => c != NUL) := by
  induction mem with
  | nil => simp at h
  | cons c cs ih =>
    by_cases hc : c = NUL
    · subst hc
      exact ⟨cs, by simp, by simp⟩
    · have h2 : NUL ∈ cs := by
        rcases List.mem_cons.mp h with h1 | h1
        · exact absurd h1.symm hc
        · exact h1
      obtain ⟨rest, h3, h4⟩ := ih h2
      refine ⟨rest, ?_, ?_⟩
      · have hb : (c != NUL) = true := by simp [hc]
        rw [List.takeWhile_cons, if_pos hb, List.cons_append, ← h3]
      · have hb : (c != NUL) = true := by simp [hc]
        rw [List.takeWhile_cons, if_pos hb, List.mem_cons, not_or]
        exact ⟨fun h5 => hc h5.symm, h4⟩

theorem compare_eq_chars (d : Dialect) (a b : string_type d) (x y : List Char)
    (ha : string_type.chars d a = some x) (hb : string_type.chars d b = some y) :
    detail.compare d a b = some (decide (x = y)) := by
  cases d with
  | cpp17 =>
    simp only [string_type.chars, Option.some.injEq] at ha hb
    subst ha hb
    simp only [detail.compare, detail.compare_value, Option.some.injEq]
    by_cases hab : (a : List Char) = b
    · simp [hab]
    · simp [hab]
  | other =>
    cases a with
    | null => simp [string_type.chars] at ha
    | ptr m1 =>
      cases b with
      | null => simp [string_type.chars] at hb
      | ptr m2 =>
        simp only [string_type.chars] at ha hb
        split at ha
        · rename_i h1
          split at hb
          · rename_i h2
            simp only [Option.some.injEq] at ha hb
            obtain ⟨t1, e1, n1⟩ := mem_split_at_NUL m1 h1
            obtain ⟨t2, e2, n2⟩ := mem_split_at_NUL m2 h2
            rw [ha] at e1 n1
            rw [hb] at e2 n2
            obtain ⟨r, hr, hiff⟩ := strcmp_mem_terminated x y t1 t2 n1 n2
            simp only [detail.compare, detail.compare_ptr, detail.strcmp]
            rw [e1, e2, hr]
            by_cases hxy : x = y
            · simp [hxy, hiff.mpr hxy]
            · have hr0 : r ≠ 0 := fun h0 => hxy (hiff.mp h0)
              simp [hxy, hr0]
          · simp at hb
        · simp at ha

/-! ## Lemmas: generated reflections -/

theorem ONLY_OR_FIRST_eq_identifier (x : Arg) :
    WISE_ENUM_IMPL_ONLY_OR_FIRST x = x.identifier := by
  cases x with
  | plain t => exact ONLY_OR_FIRST_plain t
  | paren a b => exact ONLY_OR_FIRST_paren a b

theorem NARG_of_long (va_args : List Arg) (h : 256 < va_args.length) :
    ∃ a, WISE_ENUM_IMPL_NARG va_args = some (Tok.arg a) := by
  unfold WISE_ENUM_IMPL_NARG WISE_ENUM_IMPL_NARG_ WISE_ENUM_IMPL_ARG_N
  rw [List.getElem?_append_left (by simpa using h), List.getElem?_map]
  rw [List.getElem?_eq_getElem h]
  exact ⟨_, rfl⟩

theorem ADAPT_3_arg (d : Dialect) (scope : Scope) (name friendly : List Char) (a : Arg)
    (loop : Tok) (va_args : List Arg) :
    WISE_ENUM_IMPL_ADAPT_3 d scope name friendly (Tok.arg a) loop va_args = none := rfl

theorem ADAPT_3_nil (d : Dialect) (scope : Scope) (name friendly : List Char)
    (num_enums : Tok) :
    WISE_ENUM_IMPL_ADAPT_3 d scope name friendly num_enums (Tok.num 0) [] = none := by
  cases num_enums <;> simp [WISE_ENUM_IMPL_ADAPT_3, WISE_ENUM_IMPL_CAT_LOOP, WISE_ENUM_IMPL_LOOP]

theorem ADAPT_some_count (d : Dialect) (scope : Scope) (name : List Char)
    (va_args : List Arg) (r : InNamespace (Reflection d))
    (h : WISE_ENUM_IMPL_ADAPT d scope name va_args = some r) : enumerator_count_ok va_args := by
  by_contra hc
  unfold enumerator_count_ok at hc
  by_cases hlen : va_args.length ≤ 256
  · have h0 : va_args = [] := by
      cases va_args with
      | nil => rfl
      | cons x xs => exact absurd ⟨by simp, hlen⟩ hc
    subst h0
    simp only [WISE_ENUM_IMPL_ADAPT, NARG_eq [] (by simp), Option.some_bind,
      WISE_ENUM_IMPL_ADAPT_2, List.length_nil, ADAPT_3_nil, Option.map_none'] at h
    exact absurd h (by simp)
  · obtain ⟨a, ha⟩ := NARG_of_long va_args (by omega)
    simp only [WISE_ENUM_IMPL_ADAPT, ha, Option.some_bind, WISE_ENUM_IMPL_ADAPT_2,
      ADAPT_3_arg, Option.map_none'] at h
    exact absurd h (by simp)

theorem IMPL_some_count (d : Dialect) (scope : Scope) (type : List Char) (name_storage : Arg)
    (friendly : List Char) (va_args : List Arg) (p : EnumDeclaration × Reflection d)
    (h : WISE_ENUM_IMPL d scope type name_storage friendly va_args = some p) :
    enumerator_count_ok va_args := by
  by_contra hc
  unfold enumerator_count_ok at hc
  by_cases hlen : va_args.length ≤ 256
  · have h0 : va_args = [] := by
      cases va_args with
      | nil => rfl
      | cons x xs => exact absurd ⟨by simp, hlen⟩ hc
    subst h0
    obtain ⟨storage, hst⟩ := IMPL_some_storage d scope type name_storage friendly [] p h
    simp only [WISE_ENUM_IMPL, NARG_eq [] (by simp), hst, Option.some_bind, WISE_ENUM_IMPL_2,
      WISE_ENUM_IMPL_3, List.length_nil, ADAPT_3_nil] at h
    split at h <;> simp_all
  · obtain ⟨a, ha⟩ := NARG_of_long va_args (by omega)
    obtain ⟨storage, hst⟩ := IMPL_some_storage d scope type name_storage friendly va_args p h
    simp only [WISE_ENUM_IMPL, ha, hst, Option.some_bind, WISE_ENUM_IMPL_2, WISE_ENUM_IMPL_3,
      ADAPT_3_arg] at h
    split at h <;> simp_all

theorem generated_by_count {d : Dialect} {scope : Scope} {name : List Char}
    {va_args : List Arg} {r : Reflection d} (h : generated_by d scope name va_args r) :
    enumerator_count_ok va_args := by
  rcases h with ⟨path, h⟩ | ⟨type, ns, friendly, decl, _, h⟩
  · exact ADAPT_some_count d scope name va_args _ h
  · exact IMPL_some_count d scope type ns friendly va_args _ h

theorem DESC_PAIR_eq (d : Dialect) (scope : Scope) (name : List Char) (x : Arg) :
    WISE_ENUM_IMPL_DESC_PAIR d scope name x
      = ⟨enumerator_value scope name x, enumerator_name d x⟩ := by
  simp [WISE_ENUM_IMPL_DESC_PAIR, enumerator_value, enumerator_name, WISE_ENUM_IMPL_ENUM_STR,
    WISE_ENUM_IMPL_STR, WISE_ENUM_IMPL_XSTR, ONLY_OR_FIRST_eq_identifier]

theorem SWITCH_CASE_eq (d : Dialect) (scope : Scope) (name : List Char) (x : Arg) :
    WISE_ENUM_IMPL_SWITCH_CASE d scope name x
      = ⟨enumerator_value scope name x, enumerator_name d x⟩ := by
  simp [WISE_ENUM_IMPL_SWITCH_CASE, enumerator_value, enumerator_name, WISE_ENUM_IMPL_ENUM_STR,
    WISE_ENUM_IMPL_STR, WISE_ENUM_IMPL_XSTR, ONLY_OR_FIRST_eq_identifier]

theorem generated_by_eq {d : Dialect} {scope : Scope} {name : List Char}
    {va_args : List Arg} {r : Reflection d} (h : generated_by d scope name va_args r) :
    r.wise_enum_detail_array
        = va_args.map (fun x => ⟨enumerator_value scope name x, enumerator_name d x⟩) ∧
      r.to_string_cases
        = va_args.map (fun x => ⟨enumerator_value scope name x, enumerator_name d x⟩) := by
  have hc := generated_by_count h
  rcases h with ⟨path, h⟩ | ⟨type, ns, friendly, decl, hname, h⟩
  · rw [WISE_ENUM_ADAPT, ADAPT_eq d scope name va_args hc] at h
    simp only [Option.some.injEq, InNamespace.mk.injEq] at h
    rw [← h.2]
    simp [DESC_PAIR_eq, SWITCH_CASE_eq]
  · obtain ⟨storage, hst⟩ := IMPL_some_storage d scope type ns friendly va_args _ h
    rw [IMPL_eq d scope type ns friendly va_args hc storage hst] at h
    simp only [Option.some.injEq, Prod.mk.injEq] at h
    rw [← h.2, ONLY_OR_FIRST_eq_identifier, hname]
    simp [DESC_PAIR_eq, SWITCH_CASE_eq]

/-! ## Lemmas: lookup by name -/

theorem takeWhile_append_NUL (cs : List Char) :
    (cs ++ [NUL]).takeWhile (fun c => c != NUL) = cs.takeWhile (fun c => c != NUL) := by
  induction cs with
  | nil => simp [List.takeWhile]
  | cons c cs ih =>
    rw [List.cons_append, List.takeWhile_cons, List.takeWhile_cons, ih]

theorem takeWhile_idem (cs : List Char) :
    (cs.takeWhile (fun c => c != NUL)).takeWhile (fun c => c != NUL)
      = cs.takeWhile (fun c => c != NUL) := by
  induction cs with
  | nil => rfl
  | cons c cs ih =>
    rw [List.takeWhile_cons]
    split
    · rename_i hc
      rw [List.takeWhile_cons, if_pos hc, ih]
    · rfl

theorem chars_literal (d : Dialect) (cs : List Char) :
    string_type.chars d (string_type.literal d cs)
      = some (cs.takeWhile (fun c => c != NUL)) := by
  cases d with
  | other =>
    simp only [string_type.literal, string_type.chars]
    rw [if_pos (by simp), takeWhile_append_NUL]
  | cpp17 => rfl

theorem find_if_eq_dropWhile {α : Type} (pred : α → Option Bool) (p : α → Bool) (l : List α)
    (h : ∀ x ∈ l, pred x = some (p x)) :
    find_if pred l = some (l.dropWhile (fun x => !p x)) := by
  induction l with
  | nil => rfl
  | cons x xs ih =>
    have hx := h x (List.mem_cons_self _ _)
    have ih2 := ih (fun y hy => h y (List.mem_cons_of_mem _ hy))
    cases hp : p x with
    | true => simp [find_if, hx, hp, List.dropWhile_cons]
    | false => simp [find_if, hx, hp, List.dropWhile_cons, ih2]

theorem dropWhile_first {α : Type} (q : α → Bool) (l : List α) (i : Nat) (hi : i < l.length)
    (hq : q (l.get ⟨i, hi⟩) = false)
    (hb : ∀ j (hj : j < i), q (l.get ⟨j, Nat.lt_trans hj hi⟩) = true) :
    l.dropWhile q = l.get ⟨i, hi⟩ :: l.drop (i + 1) := by
  induction l generalizing i with
  | nil => simp at hi
  | cons x xs ih =>
    cases i with
    | zero =>
      have hx : q x = false := hq
      simp [List.dropWhile_cons, hx]
    | succ k =>
      have hx : q x = true := hb 0 (Nat.succ_pos k)
      have hk : k < xs.length := by simpa using hi
      rw [List.dropWhile_cons, if_pos hx]
      have := ih k hk hq (fun j hj => hb (j + 1) (Nat.succ_lt_succ hj))
      simpa using this

theorem dropWhile_head {α : Type} (q : α → Bool) (l : List α) (x : α) (rest : List α)
    (h : l.dropWhile q = x :: rest) : x ∈ l ∧ q x = false := by
  induction l with
  | nil => simp at h
  | cons y ys ih =>
    rw [List.dropWhile_cons] at h
    split at h
    · obtain ⟨h1, h2⟩ := ih h
      exact ⟨List.mem_cons_of_mem _ h1, h2⟩
    · rename_i hy
      simp only [List.cons.injEq] at h
      rw [← h.1]
      exact ⟨List.mem_cons_self _ _, by simpa using hy⟩

theorem nodup_map_get_ne {α β : Type} (f : α → β) (l : List α) (h : (l.map f).Nodup)
    (i j : Nat) (hi : i < l.length) (hj : j < l.length) (hne : i ≠ j) :
    f (l.get ⟨i, hi⟩) ≠ f (l.get ⟨j, hj⟩) := by
  intro heq
  have hi2 : i < (l.map f).length := by simpa using hi
  have hj2 : j < (l.map f).length := by simpa using hj
  have h1 : (l.map f).get ⟨i, hi2⟩ = (l.map f).get ⟨j, hj2⟩ := by
    simpa using heq
  have h2 := (List.Nodup.get_inj_iff h).mp h1
  exact hne (Fin.mk.inj h2)

/-- The entries of a generated table all have a name that denotes a string. -/
theorem generated_by_names {d : Dialect} {scope : Scope} {name : List Char}
    {va_args : List Arg} {r : Reflection d} (h : generated_by d scope name va_args r) :
    ∀ x ∈ enumerators.range r, ∃ cs, string_type.chars d x.name = some cs := by
  intro x hx
  rw [enumerators.range, (generated_by_eq h).1] at hx
  obtain ⟨a, _, ha⟩ := List.mem_map.mp hx
  rw [← ha]
  exact ⟨_, chars_literal d _⟩

/-- The result of `from_string` on a table whose names denote strings, for an argument that
denotes the string `cs`: it is decided by the first entry whose name denotes `cs`. -/
theorem from_string_eq {d : Dialect} (r : Reflection d) (s : string_type d) (cs : List Char)
    (hs : string_type.chars d s = some cs)
    (hn : ∀ x ∈ enumerators.range r, ∃ n, string_type.chars d x.name = some n) :
    from_string r s
      = some (match (enumerators.range r).dropWhile
                  (fun x => !decide (string_type.chars d x.name = some cs)) with
              | [] => optional_type.empty d
              | x :: _ => optional_type.of d x.value) := by
  have hf := find_if_eq_dropWhile (fun x => detail.compare d x.name s)
    (fun x => decide (string_type.chars d x.name = some cs)) (enumerators.range r)
    (by
      intro x hx
      obtain ⟨n, hxn⟩ := hn x hx
      show detail.compare d x.name s = some (decide (string_type.chars d x.name = some cs))
      rw [compare_eq_chars d x.name s n cs hxn hs, hxn]
      simp)
  unfold from_string
  rw [hf]
  cases (enumerators.range r).dropWhile
      (fun x => !decide (string_type.chars d x.name = some cs)) <;> rfl

theorem has_value_empty (d : Dialect) :
    optional_type.has_value d (optional_type.empty d) = false := by
  cases d <;> rfl

theorem has_value_of (d : Dialect) (t : Int) :
    optional_type.has_value d (optional_type.of d t) = true := by
  cases d <;> rfl

theorem value_of (d : Dialect) (t : Int) :
    optional_type.value d (optional_type.of d t) = .ok t := by
  cases d <;> rfl

theorem value_empty (d : Dialect) :
    optional_type.value d (optional_type.empty d) = .error bad_optional_access.mk := by
  cases d <;> rfl

/-- In a generated reflection with pairwise distinct values, `to_string` of the value of an
entry of the table is the name of that entry. -/
theorem to_string_of_mem {d : Dialect} {scope : Scope} {name : List Char}
    {va_args : List Arg} {r : Reflection d} (h : generated_by d scope name va_args r)
    (hv : ((enumerators.range r).map (fun x => x.value)).Nodup)
    (x : detail.value_and_name d) (hx : x ∈ enumerators.range r) :
    to_string r x.value = x.name := by
  obtain ⟨harr, hcases⟩ := generated_by_eq h
  rw [enumerators.range, harr, List.map_map] at hv
  rw [enumerators.range, harr] at hx
  obtain ⟨a, ha, hax⟩ := List.mem_map.mp hx
  obtain ⟨⟨i, hi⟩, hget⟩ := List.mem_iff_get.mp ha
  have hsw := switch_return_map (d := d)
    (fun x => (⟨enumerator_value scope name x, enumerator_name d x⟩ : SwitchCase d))
    va_args hv i hi
  rw [hget] at hsw
  rw [to_string, wise_enum_detail_to_string, hcases, ← hax]
  simp only at hsw ⊢
  rw [hsw]

theorem generated_exists (d : Dialect) (scope : Scope) (name : List Char)
    (va_args : List Arg) (h : enumerator_count_ok va_args) :
    (∃ r, WISE_ENUM_ADAPT d scope name va_args = some r) ∧
      (∀ (type : List Char) (name_storage : Arg) (friendly : List Char),
        first_argument_ok name_storage →
        ∃ p, WISE_ENUM_IMPL d scope type name_storage friendly va_args = some p) :=
  ⟨⟨_, ADAPT_eq d scope name va_args h⟩,
   fun type ns friendly hok =>
     ⟨_, IMPL_eq d scope type ns friendly va_args h _ (STORAGE_of_ok ns hok)⟩⟩

theorem color_generated :
    generated_by Dialect.other color_scope "Color".toList color_args color_reflection :=
  Or.inl ⟨["wise_enum".toList, "detail".toList], by
    rw [WISE_ENUM_ADAPT, ADAPT_eq _ _ _ _ ⟨by decide, by decide⟩]
    rfl⟩

/-! ## Claims about the reflection table and `to_string` -/

/-- C1: for an enum declared or adapted with an enumerator list of 1 to 256 entries whose
values are pairwise distinct, the macros generate a reflection, and in every reflection they
generate `to_string` of the value of the i-th enumerator is its textual identifier, which is
the name stored in the i-th entry of the table. -/
theorem C1_to_string_returns_identifier (d : Dialect) (scope : Scope) (name : List Char)
    (va_args : List Arg) (hcount : enumerator_count_ok va_args)
    (hdistinct : (va_args.map (enumerator_value scope name)).Nodup) :
    (∃ r, WISE_ENUM_ADAPT d scope name va_args = some r) ∧
    (∀ (type : List Char) (name_storage : Arg) (friendly : List Char),
      first_argument_ok name_storage →
      ∃ p, WISE_ENUM_IMPL d scope type name_storage friendly va_args = some p) ∧
    ∀ r, generated_by d scope name va_args r → ∀ (i : Nat) (hi : i < va_args.length),
      to_string r (enumerator_value scope name (va_args.get ⟨i, hi⟩))
          = enumerator_name d (va_args.get ⟨i, hi⟩) ∧
        ((enumerators.range r)[i]?).map (fun x => x.name)
          = some (enumerator_name d (va_args.get ⟨i, hi⟩)) := by
  refine ⟨(generated_exists d scope name va_args hcount).1,
    (generated_exists d scope name va_args hcount).2, ?_⟩
  intro r hgen i hi
  obtain ⟨harr, hcases⟩ := generated_by_eq hgen
  have hsw := switch_return_map (d := d)
    (fun x => (⟨enumerator_value scope name x, enumerator_name d x⟩ : SwitchCase d))
    va_args hdistinct i hi
  constructor
  · rw [to_string, wise_enum_detail_to_string, hcases]
    simp only at hsw ⊢
    rw [hsw]
  · rw [enumerators.range, harr, List.getElem?_map, List.getElem?_eq_getElem hi]
    rfl

/-- C1 at `Color`: `to_string` of the value 4 of the second enumerator is `GREEN`. -/
theorem C1_to_string_returns_identifier_witness :
    to_string color_reflection 4 = CharPtr.ptr "GREEN\x00".toList :=
  ((C1_to_string_returns_identifier Dialect.other color_scope "Color".toList color_args
      (by decide) (by decide)).2.2 color_reflection color_generated 1 (by decide)).1

/-- C5: the macros generate a reflection for every enumerator list of 1 to 256 entries, and
`enumerators<T>::range` of a generated reflection is the list of the pairs (value of xi,
textual identifier of xi) in the order of the enumerator list, with no other element. -/
theorem C5_range_in_declared_order (d : Dialect) (scope : Scope) (name : List Char)
    (va_args : List Arg) (hcount : enumerator_count_ok va_args) :
    (∃ r, WISE_ENUM_ADAPT d scope name va_args = some r) ∧
    (∀ (type : List Char) (name_storage : Arg) (friendly : List Char),
      first_argument_ok name_storage →
      ∃ p, WISE_ENUM_IMPL d scope type name_storage friendly va_args = some p) ∧
    ∀ r, generated_by d scope name va_args r →
      enumerators.range r
        = va_args.map (fun x => ⟨enumerator_value scope name x, enumerator_name d x⟩) := by
  refine ⟨(generated_exists d scope name va_args hcount).1,
    (generated_exists d scope name va_args hcount).2, ?_⟩
  intro r hgen
  exact (generated_by_eq hgen).1

/-- C5 at `Color`: the range is `(0, RED), (4, GREEN), (5, BLUE)`. -/
theorem C5_range_in_declared_order_witness :
    enumerators.range color_reflection
      = [⟨0, CharPtr.ptr "RED\x00".toList⟩, ⟨4, CharPtr.ptr "GREEN\x00".toList⟩,
         ⟨5, CharPtr.ptr "BLUE\x00".toList⟩] :=
  (C5_range_in_declared_order Dialect.other color_scope "Color".toList color_args
    (by decide)).2.2 color_reflection color_generated

/-- C6: for an enumerator list of n arguments with 1 <= n <= 256, `WISE_ENUM_IMPL_NARG`
yields n, and `enumerators<T>::size` of every generated reflection is n and is the length of
`range`. -/
theorem C6_size_is_enumerator_count (d : Dialect) (scope : Scope) (name : List Char)
    (va_args : List Arg) (hcount : enumerator_count_ok va_args) :
    WISE_ENUM_IMPL_NARG va_args = some (Tok.num va_args.length) ∧
    (∃ r, WISE_ENUM_ADAPT d scope name va_args = some r) ∧
    (∀ (type : List Char) (name_storage : Arg) (friendly : List Char),
      first_argument_ok name_storage →
      ∃ p, WISE_ENUM_IMPL d scope type name_storage friendly va_args = some p) ∧
    ∀ r, generated_by d scope name va_args r →
      enumerators.size r = va_args.length ∧
        enumerators.size r = (enumerators.range r).length := by
  refine ⟨NARG_eq va_args hcount.2, (generated_exists d scope name va_args hcount).1,
    (generated_exists d scope name va_args hcount).2, ?_⟩
  intro r hgen
  refine ⟨?_, rfl⟩
  rw [enumerators.size, enumerators.range, (generated_by_eq hgen).1, List.length_map]

/-- C6 at `Color`: three enumerators are counted and the size is 3. -/
theorem C6_size_is_enumerator_count_witness :
    WISE_ENUM_IMPL_NARG color_args = some (Tok.num 3) ∧ enumerators.size color_reflection = 3 :=
  have h := C6_size_is_enumerator_count Dialect.other color_scope "Color".toList color_args
    (by decide)
  ⟨h.1, (h.2.2.2 color_reflection color_generated).1⟩

/-! ## Claims about `from_string` -/

/-- C2: in a generated reflection whose values are pairwise distinct and whose names are
pairwise distinct, for every entry `e` of the table `from_string(to_string(e))` returns an
optional that holds a value, and that value is `e`. -/
theorem C2_round_trip_value_name_value (d : Dialect) (scope : Scope) (name : List Char)
    (va_args : List Arg) (r : Reflection d) (hgen : generated_by d scope name va_args r)
    (hvalues : ((enumerators.range r).map (fun x => x.value)).Nodup)
    (hnames : ((enumerators.range r).map (fun x => string_type.chars d x.name)).Nodup)
    (e : detail.value_and_name d) (he : e ∈ enumerators.range r) :
    ∃ o, from_string r (to_string r e.value) = some o ∧
      optional_type.has_value d o = true ∧ optional_type.value d o = .ok e.value := by
  rw [to_string_of_mem hgen hvalues e he]
  obtain ⟨cs, hcs⟩ := generated_by_names hgen e he
  rw [from_string_eq r e.name cs hcs (generated_by_names hgen)]
  obtain ⟨⟨i, hi⟩, hget⟩ := List.mem_iff_get.mp he
  have hfirst := dropWhile_first
    (fun x => !decide (string_type.chars d x.name = some cs)) (enumerators.range r) i hi
    (by rw [hget]; simp [hcs])
    (by
      intro j hj
      have hji : j < (enumerators.range r).length := Nat.lt_trans hj hi
      have hne : string_type.chars d ((enumerators.range r).get ⟨j, hji⟩).name ≠ some cs := by
        intro heq
        have h1 := nodup_map_get_ne (fun x => string_type.chars d x.name)
          (enumerators.range r) hnames j i hji hi (Nat.ne_of_lt hj)
        apply h1
        simp only
        rw [hget, hcs, heq]
      simpa using hne)
  rw [hfirst, hget]
  exact ⟨_, rfl, has_value_of d _, value_of d _⟩

/-- C2 at `Color`: `from_string(to_string(GREEN))` holds `GREEN`, whose value is 4. -/
theorem C2_round_trip_value_name_value_witness :
    ∃ o, from_string color_reflection (to_string color_reflection 4) = some o ∧
      optional_type.has_value Dialect.other o = true ∧
      optional_type.value Dialect.other o = .ok 4 :=
  C2_round_trip_value_name_value Dialect.other color_scope "Color".toList color_args
    color_reflection color_generated (by decide) (by decide)
    ⟨4, CharPtr.ptr "GREEN\x00".toList⟩ (List.mem_cons_of_mem _ (List.mem_cons_self _ _))

/-- C3: in a generated reflection whose values are pairwise distinct, for every string `s`,
if `from_string(s)` returns an optional that holds the value `v`, then `to_string(v)` is the
string `s`. -/
theorem C3_round_trip_name_value_name (d : Dialect) (scope : Scope) (name : List Char)
    (va_args : List Arg) (r : Reflection d) (hgen : generated_by d scope name va_args r)
    (hvalues : ((enumerators.range r).map (fun x => x.value)).Nodup)
    (s : string_type d) (cs : List Char) (hs : string_type.chars d s = some cs)
    (o : optional_type d) (v : Int) (hfrom : from_string r s = some o)
    (hheld : optional_type.has_value d o = true ∧ optional_type.value d o = .ok v) :
    string_type.chars d (to_string r v) = string_type.chars d s := by
  rw [from_string_eq r s cs hs (generated_by_names hgen)] at hfrom
  simp only [Option.some.injEq] at hfrom
  cases hdw : (enumerators.range r).dropWhile
      (fun x => !decide (string_type.chars d x.name = some cs)) with
  | nil =>
    rw [hdw] at hfrom
    rw [← hfrom, has_value_empty] at hheld
    exact absurd hheld.1 (by simp)
  | cons x rest =>
    rw [hdw] at hfrom
    obtain ⟨hx, hq⟩ := dropWhile_head _ _ _ _ hdw
    have hxv : v = x.value := by
      have h2 := hheld.2
      rw [← hfrom, value_of] at h2
      exact (Except.ok.inj h2).symm
    have hname : string_type.chars d x.name = some cs := by simpa using hq
    rw [hxv, to_string_of_mem hgen hvalues x hx, hname, hs]

/-- C3 at `Color`: `from_string("GREEN")` holds the value 4, and `to_string(4)` is the string
`GREEN`; the argument is a pointer into a larger buffer. -/
theorem C3_round_trip_name_value_name_witness :
    from_string color_reflection (CharPtr.ptr "GREEN\x00tail".toList) = some (optional.of 4) ∧
    string_type.chars Dialect.other (to_string color_reflection 4)
      = string_type.chars Dialect.other (CharPtr.ptr "GREEN\x00tail".toList) :=
  ⟨rfl,
   C3_round_trip_name_value_name Dialect.other color_scope "Color".toList color_args
    color_reflection color_generated (by decide) (CharPtr.ptr "GREEN\x00tail".toList)
    "GREEN".toList (by decide) (optional.of 4) 4 rfl ⟨rfl, rfl⟩⟩

/-- C4: on a generated reflection and a string `s`, `from_string(s)` returns an optional; it is
empty if and only if no entry of the table has a name equal to `s`; and when the i-th entry is
the first one whose name equals `s`, it holds the value of that entry. -/
theorem C4_from_string_first_match (d : Dialect) (scope : Scope) (name : List Char)
    (va_args : List Arg) (r : Reflection d) (hgen : generated_by d scope name va_args r)
    (s : string_type d) (cs : List Char) (hs : string_type.chars d s = some cs) :
    ∃ o, from_string r s = some o ∧
      (optional_type.has_value d o = false ↔
        ∀ x ∈ enumerators.range r, string_type.chars d x.name ≠ string_type.chars d s) ∧
      ∀ (i : Nat) (hi : i < (enumerators.range r).length),
        string_type.chars d ((enumerators.range r).get ⟨i, hi⟩).name = string_type.chars d s →
        (∀ (j : Nat) (hj : j < i),
          string_type.chars d ((enumerators.range r).get ⟨j, Nat.lt_trans hj hi⟩).name
            ≠ string_type.chars d s) →
        optional_type.has_value d o = true ∧
          optional_type.value d o = .ok ((enumerators.range r).get ⟨i, hi⟩).value := by
  rw [from_string_eq r s cs hs (generated_by_names hgen), hs]
  refine ⟨_, rfl, ?_, ?_⟩
  · cases hdw : (enumerators.range r).dropWhile
        (fun x => !decide (string_type.chars d x.name = some cs)) with
    | nil =>
      simp only [has_value_empty, true_iff]
      intro x hx
      have := List.dropWhile_eq_nil_iff.mp hdw x hx
      simpa using this
    | cons x rest =>
      obtain ⟨hx, hq⟩ := dropWhile_head _ _ _ _ hdw
      simp only [has_value_of, Bool.true_eq_false, false_iff, not_forall]
      exact ⟨x, hx, by simpa using hq⟩
  · intro i hi hmatch hbefore
    have hfirst := dropWhile_first
      (fun x => !decide (string_type.chars d x.name = some cs)) (enumerators.range r) i hi
      (by simpa using hmatch) (by intro j hj; simpa using hbefore j hj)
    rw [hfirst]
    exact ⟨has_value_of d _, value_of d _⟩

/-- C4 at `Color` and the string `BLUE`: the third entry is the first match, its value is 5. -/
theorem C4_from_string_first_match_witness :
    ∃ o, from_string color_reflection (CharPtr.ptr "BLUE\x00".toList) = some o ∧
      optional_type.has_value Dialect.other o = true ∧
      optional_type.value Dialect.other o = .ok 5 := by
  obtain ⟨o, ho, _, hfirst⟩ := C4_from_string_first_match Dialect.other color_scope
    "Color".toList color_args color_reflection color_generated
    (CharPtr.ptr "BLUE\x00".toList) "BLUE".toList (by decide)
  exact ⟨o, ho, hfirst 2 (by decide) (by decide) (by decide)⟩

/-! ## Claims about `compact_optional` -/

theorem is_enum_value_from_iff {d : Dialect} (l : List (detail.value_and_name d)) (x : Int) :
    is_enum_value_from l x = true ↔ ∃ e ∈ l, e.value = x := by
  induction l with
  | nil => simp [is_enum_value_from]
  | cons a l ih =>
    by_cases ha : a.value = x
    · simp [is_enum_value_from, ha]
    · simp [is_enum_value_from, ha, ih]

/-- C7: when `invalid` passes the static assertion of `compact_optional<T, invalid>`, for every
entry `e` of the table of `T` the optional built from the value of `e` has a value:
`has_value()` is true and `value()` and `operator*` both return the value of `e`. -/
theorem C7_compact_optional_of_enumerator {d : Dialect} (r : Reflection d) (invalid : Int)
    (hassert : compact_optional.static_assert_invalid r invalid = true)
    (e : detail.value_and_name d) (he : e ∈ enumerators.range r) :
    compact_optional.has_value invalid (compact_optional.of e.value) = true ∧
    compact_optional.value invalid (compact_optional.of e.value) = .ok e.value ∧
    compact_optional.deref (compact_optional.of e.value) = e.value := by
  have hne : e.value ≠ invalid := by
    intro heq
    have hin : is_enum_value r invalid = true :=
      (is_enum_value_from_iff _ _).mpr ⟨e, he, heq⟩
    simp [compact_optional.static_assert_invalid, hin] at hassert
  simp [compact_optional.has_value, compact_optional.value, compact_optional.of,
    compact_optional.deref, hne]

/-- C7 at `Color` with the sentinel 2147483647: the optional built from `GREEN` holds 4. -/
theorem C7_compact_optional_of_enumerator_witness :
    compact_optional.static_assert_invalid color_reflection 2147483647 = true ∧
    compact_optional.has_value 2147483647 (compact_optional.of 4) = true ∧
    compact_optional.value 2147483647 (compact_optional.of 4) = .ok 4 ∧
    compact_optional.deref (compact_optional.of 4) = 4 :=
  ⟨by decide,
   C7_compact_optional_of_enumerator color_reflection 2147483647 (by decide)
    ⟨4, CharPtr.ptr "GREEN\x00".toList⟩ (List.mem_cons_of_mem _ (List.mem_cons_self _ _))⟩

/-- C8: `compact_optional::value()` throws `bad_optional_access` if and only if `has_value()`
is false, and when `has_value()` is true it returns the stored value, which is what `operator*`
returns. -/
theorem C8_compact_optional_value (invalid : Int) (o : compact_optional) :
    (compact_optional.value invalid o = .error bad_optional_access.mk ↔
      compact_optional.has_value invalid o = false) ∧
    (compact_optional.has_value invalid o = true →
      compact_optional.value invalid o = .ok o.m_storage ∧
      compact_optional.value invalid o = .ok (compact_optional.deref o)) := by
  unfold compact_optional.value compact_optional.has_value compact_optional.deref
  cases h : (o.m_storage != invalid) <;> simp

/-- C8 at the optional holding 4 with the sentinel 7: `value()` returns 4. -/
theorem C8_compact_optional_value_witness :
    compact_optional.value 7 (compact_optional.of 4) = .ok 4 :=
  ((C8_compact_optional_value 7 (compact_optional.of 4)).2 (by decide)).1

/-- C9: a default-constructed `compact_optional` has no value (`has_value()` and
`operator bool` are false); after `reset()` any `compact_optional` has no value; and `reset()`
twice leaves the same object as `reset()` once. -/
theorem C9_compact_optional_default_and_reset (invalid : Int) (o : compact_optional) :
    compact_optional.has_value invalid (compact_optional.default invalid) = false ∧
    compact_optional.to_bool invalid (compact_optional.default invalid) = false ∧
    compact_optional.has_value invalid (compact_optional.reset invalid o) = false ∧
    compact_optional.to_bool invalid (compact_optional.reset invalid o) = false ∧
    compact_optional.reset invalid (compact_optional.reset invalid o)
      = compact_optional.reset invalid o := by
  simp [compact_optional.has_value, compact_optional.to_bool, compact_optional.default,
    compact_optional.reset]

/-- C10: `compact_optional::value_or(u)` returns the stored value when `has_value()` is true
and `u` when it is false; it never throws and leaves the object as it was. -/
theorem C10_compact_optional_value_or (invalid : Int) (o : compact_optional) (u : Int) :
    (compact_optional.has_value invalid o = true →
      (compact_optional.value_or invalid o u).1 = .ok (compact_optional.deref o)) ∧
    (compact_optional.has_value invalid o = false →
      (compact_optional.value_or invalid o u).1 = .ok u) ∧
    (∃ t, (compact_optional.value_or invalid o u).1 = .ok t) ∧
    (compact_optional.value_or invalid o u).2 = o := by
  unfold compact_optional.value_or compact_optional.deref
  cases h : compact_optional.has_value invalid o <;> simp

/-- C10 at the optional holding 4 with the sentinel 7: `value_or(9)` returns 4. -/
theorem C10_compact_optional_value_or_witness :
    (compact_optional.value_or 7 (compact_optional.of 4) 9).1 = .ok 4 :=
  (C10_compact_optional_value_or 7 (compact_optional.of 4) 9).1 (by decide)

/-! ## Claims about the storage of `compact_optional` and about `is_enum_value` -/

/-- C11: the state of a `compact_optional` is the one integer `m_storage` (two objects with
equal `m_storage` are equal, there is no flag); in every state `has_value()`, like
`operator bool`, is true exactly when `m_storage` differs from `invalid`; and the default
`invalid` is the greatest value that the underlying type holds. -/
theorem C11_compact_optional_single_integer (invalid : Int) (I : IntegralType) :
    (∀ o o2 : compact_optional, o.m_storage = o2.m_storage → o = o2) ∧
    (∀ o : compact_optional,
      (compact_optional.has_value invalid o = true ↔ o.m_storage ≠ invalid) ∧
      compact_optional.to_bool invalid o = compact_optional.has_value invalid o) ∧
    I.holds (compact_optional.invalid_default I) ∧
    ∀ v, I.holds v → v ≤ compact_optional.invalid_default I := by
  refine ⟨?_, ?_, ?_, ?_⟩
  · intro o o2 h
    cases o
    cases o2
    simp only at h
    rw [h]
  · intro o
    simp [compact_optional.has_value, compact_optional.to_bool]
  · unfold IntegralType.holds compact_optional.invalid_default numeric_limits_max
    cases hs : I.is_signed
    · have hpos : (0 : Int) < 2 ^ I.bits := by positivity
      simp only [Bool.false_eq_true, if_false]
      omega
    · have hpos : (0 : Int) < 2 ^ (I.bits - 1) := by positivity
      simp only [if_true]
      omega
  · intro v hv
    unfold IntegralType.holds at hv
    unfold compact_optional.invalid_default numeric_limits_max
    cases hs : I.is_signed
    · simp only [hs, Bool.false_eq_true, if_false] at hv ⊢
      omega
    · simp only [hs, if_true] at hv ⊢
      omega

/-- For a 32-bit signed underlying type the default sentinel is 2147483647. -/
theorem invalid_default_int32 :
    compact_optional.invalid_default ⟨true, 32⟩ = 2147483647 := by decide

/-- C12: `is_enum_value<T>(x)` is true if and only if some entry of the table of `T` has the
value `x`, and the static assertion of `compact_optional` on the sentinel fails exactly when
an entry has the sentinel as value. -/
theorem C12_is_enum_value_iff {d : Dialect} (r : Reflection d) (x : Int) :
    (is_enum_value r x = true ↔ ∃ e ∈ enumerators.range r, e.value = x) ∧
    (compact_optional.static_assert_invalid r x = false ↔
      ∃ e ∈ enumerators.range r, e.value = x) := by
  have h := is_enum_value_from_iff (enumerators.range r) x
  refine ⟨h, ?_⟩
  rw [← h]
  simp [compact_optional.static_assert_invalid, is_enum_value]

/-! ## Claims about `wise_enum::optional` -/

/-- C16: `wise_enum::optional` refines the reference `Option`: a default-constructed optional
stands for `none`, `optional(t)` for `some t`, `reset()` gives `none`, `has_value()` and
`operator bool` tell whether the reference value is a `some`, and `value_or(u)` is the held
value if there is one and `u` otherwise. -/
theorem C16_optional_refines_option (junk t u : Int) (o : optional) :
    (optional.default junk).held = none ∧
    (optional.of t).held = some t ∧
    (optional.reset o).held = none ∧
    optional.has_value o = (optional.held o).isSome ∧
    optional.to_bool o = (optional.held o).isSome ∧
    optional.value_or o u = (optional.held o).getD u := by
  cases o with
  | mk m_t m_active =>
    cases m_active <;>
      simp [optional.held, optional.default, optional.of, optional.reset, optional.has_value,
        optional.to_bool, optional.value_or]

/-- The overloads `value() &` and `value() const &` throw `bad_optional_access` if and only if
`has_value()` is false, and otherwise return the held value. -/
theorem optional_value_of_lvalue (o : optional) :
    (optional.value o = .error bad_optional_access.mk ↔ optional.has_value o = false) ∧
    (optional.has_value o = true → optional.value o = .ok o.m_t) ∧
    (∀ v, optional.held o = some v → optional.value o = .ok v) := by
  cases o with
  | mk m_t m_active =>
    cases m_active <;> simp [optional.value, optional.has_value, optional.held]

/-- C17 fails on the code at `optional<T>(t).value()`, and at `from_string<T>(s).value()`:
on an rvalue object the call selects `value() &&` (or `value() const &&`), whose body returns
the lvalue `m_t` as `T &&`; this is ill-formed for every state of the object, so there the
call neither throws nor returns, and `operator* &&` has the same defect. The overloads
`value() &` and `value() const &`, selected on an lvalue object, do what the claim says: they
throw exactly when `has_value()` is false and return `m_t` otherwise. -/
theorem C17_value_on_rvalue_is_ill_formed :
    (∀ o : optional,
      optional.value_on optional.RefQualifier.lvalue o = some (optional.value o) ∧
      optional.value_on optional.RefQualifier.const_lvalue o = some (optional.value o) ∧
      (optional.value o = .error bad_optional_access.mk ↔ optional.has_value o = false) ∧
      optional.value o
        = (if optional.has_value o then .ok o.m_t else .error bad_optional_access.mk)) ∧
    (∀ o : optional,
      optional.value_on optional.RefQualifier.rvalue o = none ∧
      optional.value_on optional.RefQualifier.const_rvalue o = none ∧
      optional.deref_on optional.RefQualifier.rvalue o = none ∧
      optional.deref_on optional.RefQualifier.const_rvalue o = none ∧
      optional.deref_on optional.RefQualifier.lvalue o = some (optional.deref o) ∧
      optional.deref_on optional.RefQualifier.const_lvalue o = some (optional.deref o)) ∧
    optional.value_on optional.RefQualifier.rvalue (optional.of 4) = none ∧
    optional.value_on optional.RefQualifier.rvalue (optional.reset (optional.of 4)) = none ∧
    (from_string color_reflection (CharPtr.ptr "GREEN\x00".toList)).map
        (fun (o : optional) => optional.value_on optional.RefQualifier.rvalue o)
      = some none := by
  refine ⟨?_, ?_, rfl, rfl, rfl⟩
  · intro o
    cases o with
    | mk m_t m_active =>
      cases m_active <;> simp [optional.value_on, optional.value, optional.has_value,
        optional.RefQualifier.return_m_t_binds, optional.RefQualifier.returns_rvalue_reference,
        optional.RefQualifier.returns_const, optional.RefQualifier.is_const]
  · intro o
    exact ⟨rfl, rfl, rfl, rfl, rfl, rfl⟩

/-- C18, as stated, fails: the state of a `wise_enum::optional` is not a single value of `T`,
since two optionals with the same stored value can differ (one holds it, the other is
empty). -/
theorem C18_counterexample :
    ¬ (∀ o o2 : optional, o.m_t = o2.m_t → o = o2) ∧
    (optional.of 4).m_t = (optional.reset (optional.of 4)).m_t ∧
    optional.has_value (optional.of 4) = true ∧
    optional.has_value (optional.reset (optional.of 4)) = false := by
  refine ⟨?_, rfl, rfl, rfl⟩
  intro h
  have h2 := h (optional.of 4) (optional.reset (optional.of 4)) rfl
  exact absurd h2 (by decide)

/-- C18, amended: the state of a `wise_enum::optional` is a value of `T` together with the
flag `m_active`, which alone records emptiness: `has_value()` is the flag, two optionals are
equal exactly when both members are, and for every stored value there is an optional that
holds it and an empty one. -/
theorem C18_optional_value_and_flag :
    (∀ o : optional, optional.has_value o = o.m_active) ∧
    (∀ o o2 : optional, o = o2 ↔ o.m_t = o2.m_t ∧ o.m_active = o2.m_active) ∧
    ∀ t : Int, ∃ o o2 : optional, o.m_t = t ∧ o2.m_t = t ∧
      optional.has_value o = true ∧ optional.has_value o2 = false := by
  refine ⟨fun _ => rfl, ?_, ?_⟩
  · intro o o2
    cases o
    cases o2
    simp
  · intro t
    exact ⟨optional.of t, optional.reset (optional.of t), rfl, rfl, rfl, rfl⟩

/-! ## Claim about `is_wise_enum` -/

theorem intersperse_lefts {β δ : Type} (sep : δ) (ys : List β) :
    (List.intersperse (Sum.inr sep) (ys.map (fun b => (Sum.inl b : β ⊕ δ)))).filterMap
        Sum.getLeft? = ys := by
  induction ys with
  | nil => rfl
  | cons y ys ih =>
    cases ys with
    | nil => rfl
    | cons z zs =>
      simp only [List.map_cons, List.intersperse] at ih ⊢
      simp only [List.filterMap_cons, Sum.getLeft?_inl, Sum.getLeft?_inr]
      rw [ih]

theorem intersperse_rights {β δ : Type} (sep : δ) (ys : List β) :
    ((List.intersperse (Sum.inr sep) (ys.map (fun b => (Sum.inl b : β ⊕ δ)))).filterMap
        Sum.getRight?) = List.replicate (ys.length - 1) sep := by
  induction ys with
  | nil => rfl
  | cons y ys ih =>
    cases ys with
    | nil => rfl
    | cons z zs =>
      simp only [List.map_cons, List.intersperse] at ih ⊢
      simp only [List.filterMap_cons, Sum.getRight?_inl, Sum.getRight?_inr]
      rw [ih]
      simp [List.replicate_succ]

theorem intersperse_last {β δ : Type} (sep : δ) (ys : List β) :
    (List.intersperse (Sum.inr sep) (ys.map (fun b => (Sum.inl b : β ⊕ δ)))).getLast?
      = ys.getLast?.map Sum.inl := by
  induction ys with
  | nil => rfl
  | cons y ys ih =>
    cases ys with
    | nil => rfl
    | cons z zs =>
      simp only [List.map_cons, List.intersperse] at ih ⊢
      rw [List.getLast?_cons_cons, List.getLast?_cons_cons]
      cases zs with
      | nil => rfl
      | cons w ws =>
        simp only [List.map_cons, List.intersperse] at ih ⊢
        rw [List.getLast?_cons_cons, ih]

/-- C20: for 1 <= n <= 256 and every argument list `x1..xn`, `WISE_ENUM_IMPL_LOOP_n(M, C, D,
x1, ..., xn)` expands to `M(C, x1) D() M(C, x2) D() ... M(C, xn)`: its expansions of `M` are
`M(C, xi)` for every argument, once each and in order; its delimiters are n-1 copies of `D()`;
and it ends with the expansion of `M` on the last argument, not with a delimiter. -/
theorem C20_loop_expansion {α β γ δ : Type} (M : γ → α → β) (C : γ) (D : Unit → δ)
    (xs : List α) (h1 : 1 ≤ xs.length) (h2 : xs.length ≤ 256) :
    ∃ out, WISE_ENUM_IMPL_LOOP xs.length M C D xs = some out ∧
      out = List.intersperse (Sum.inr (D ())) (xs.map (fun x => Sum.inl (M C x))) ∧
      out.filterMap Sum.getLeft? = xs.map (M C) ∧
      out.filterMap Sum.getRight? = List.replicate (xs.length - 1) (D ()) ∧
      out.getLast? = (xs.getLast?.map (fun x => Sum.inl (M C x))) := by
  refine ⟨_, LOOP_eq M C D xs h1 h2, rfl, ?_, ?_, ?_⟩
  · have h := intersperse_lefts (D ()) (xs.map (M C))
    rw [List.map_map] at h
    exact h
  · have h := intersperse_rights (D ()) (xs.map (M C))
    rw [List.map_map, List.length_map] at h
    exact h
  · have h := intersperse_last (D ()) (xs.map (M C))
    rw [List.map_map, List.getLast?_map, Option.map_map] at h
    exact h

/-- C20 at three arguments: `WISE_ENUM_IMPL_LOOP_3(M, C, D, 1, 2, 3)` with `M(C, x)` the sum of
`C` and `x`. -/
theorem C20_loop_expansion_witness :
    WISE_ENUM_IMPL_LOOP 3 (fun (c x : Nat) => c + x) 10 WISE_ENUM_IMPL_COMMA [1, 2, 3]
      = some [Sum.inl 11, Sum.inr Delim.comma, Sum.inl 12, Sum.inr Delim.comma, Sum.inl 13] := by
  obtain ⟨out, hout, heq, _⟩ := C20_loop_expansion (fun (c x : Nat) => c + x) 10
    WISE_ENUM_IMPL_COMMA [1, 2, 3] (by decide) (by decide)
  rw [show ([1, 2, 3] : List Nat).length = 3 from rfl] at hout
  rw [hout, heq]
  rfl

/-! ## Claims about the macro interface -/

theorem ENUM_INIT_eq (name : List Char) (x : Arg) :
    WISE_ENUM_IMPL_ENUM_INIT name x = x.enumerator_definition := by
  cases x with
  | plain t =>
    simp [WISE_ENUM_IMPL_ENUM_INIT, IS_PAREN_plain, WISE_ENUM_IMPL_IIF, Arg.text,
      Arg.enumerator_definition]
  | paren a b =>
    simp [WISE_ENUM_IMPL_ENUM_INIT, IS_PAREN_paren, WISE_ENUM_IMPL_IIF,
      WISE_ENUM_IMPL_ENUM_INIT_2, Arg.enumerator_definition]

/-- The result of a declaring macro on a list of 1 to 256 entries, in terms of the identifiers
and enumerator-definitions of the entries. -/
theorem IMPL_eq_spec (d : Dialect) (scope : Scope) (type : List Char) (name_storage : Arg)
    (friendly : List Char) (va_args : List Arg) (h : enumerator_count_ok va_args)
    (hok : first_argument_ok name_storage) :
    WISE_ENUM_IMPL d scope type name_storage friendly va_args
      = some (⟨type, name_storage.identifier, name_storage.storage_clause,
                va_args.map Arg.enumerator_definition⟩,
              ⟨friendly, name_storage.identifier,
                va_args.map (fun x =>
                  ⟨enumerator_value scope name_storage.identifier x, enumerator_name d x⟩),
                va_args.map (fun x =>
                  ⟨enumerator_value scope name_storage.identifier x, enumerator_name d x⟩)⟩) := by
  rw [IMPL_eq d scope type name_storage friendly va_args h _ (STORAGE_of_ok name_storage hok),
    ONLY_OR_FIRST_eq_identifier]
  simp [DESC_PAIR_eq, SWITCH_CASE_eq, ENUM_INIT_eq]

/-- The result of `WISE_ENUM_ADAPT` on a list of 1 to 256 entries, in the same terms. -/
theorem ADAPT_eq_spec (d : Dialect) (scope : Scope) (name : List Char)
    (va_args : List Arg) (h : enumerator_count_ok va_args) :
    WISE_ENUM_ADAPT d scope name va_args
      = some ⟨["wise_enum".toList, "detail".toList],
          ⟨[], name,
            va_args.map (fun x => ⟨enumerator_value scope name x, enumerator_name d x⟩),
            va_args.map (fun x => ⟨enumerator_value scope name x, enumerator_name d x⟩)⟩⟩ := by
  rw [WISE_ENUM_ADAPT, ADAPT_eq d scope name va_args h]
  simp [DESC_PAIR_eq, SWITCH_CASE_eq]

/-- C13, as stated, fails: for the same name `Color` and the same list, what `WISE_ENUM` and
`WISE_ENUM_ADAPT` write differs in more than the enum keyword, the friend qualifier and the
presence of the enum declaration, because `WISE_ENUM_ADAPT` puts the generated functions in
`namespace wise_enum::detail` and `WISE_ENUM` opens no namespace. -/
theorem C13_counterexample :
    ∃ e1 e2,
      (WISE_ENUM Dialect.other color_scope (Arg.plain "Color".toList) color_args).map
          Expansion.of_declaration = some e1 ∧
      (WISE_ENUM_ADAPT Dialect.other color_scope "Color".toList color_args).map
          Expansion.of_adapt = some e2 ∧
      e1.namespaces = [] ∧
      e2.namespaces = ["wise_enum".toList, "detail".toList] ∧
      ¬ Expansion.differ_only_in_keyword_friend_declared e1 e2 := by
  rw [WISE_ENUM, IMPL_eq_spec _ _ _ _ _ _ ⟨by decide, by decide⟩ (by decide),
    ADAPT_eq_spec _ _ _ _ ⟨by decide, by decide⟩]
  refine ⟨_, _, rfl, rfl, rfl, rfl, ?_⟩
  intro h
  exact absurd h.1 (by decide)

/-- C13, amended: for the same name and enumerator list of 1 to 256 entries, `WISE_ENUM`,
`WISE_ENUM_CLASS`, `WISE_ENUM_MEMBER`, `WISE_ENUM_CLASS_MEMBER` and `WISE_ENUM_ADAPT` generate
the same table and the same switch of `to_string`, attached to the same name; they differ
only in the enum keyword, the friend qualifier, whether the enum is declared, and in that
`WISE_ENUM_ADAPT` writes the functions inside `namespace wise_enum::detail`. The first
argument of the declaring macros is the name or a pair `(name, storage)`. -/
theorem C13_same_metadata_from_all_macros (d : Dialect) (scope : Scope) (name_storage : Arg)
    (va_args : List Arg) (hcount : enumerator_count_ok va_args)
    (hfirst : first_argument_ok name_storage) :
    ∃ (table : List (detail.value_and_name d)) (cases : List (SwitchCase d))
      (storage : List Char) (definitions : List (List Char)),
      WISE_ENUM d scope name_storage va_args
        = some (⟨"enum".toList, name_storage.identifier, storage, definitions⟩,
                ⟨[], name_storage.identifier, table, cases⟩) ∧
      WISE_ENUM_CLASS d scope name_storage va_args
        = some (⟨"enum class".toList, name_storage.identifier, storage, definitions⟩,
                ⟨[], name_storage.identifier, table, cases⟩) ∧
      WISE_ENUM_MEMBER d scope name_storage va_args
        = some (⟨"enum".toList, name_storage.identifier, storage, definitions⟩,
                ⟨"friend".toList, name_storage.identifier, table, cases⟩) ∧
      WISE_ENUM_CLASS_MEMBER d scope name_storage va_args
        = some (⟨"enum class".toList, name_storage.identifier, storage, definitions⟩,
                ⟨"friend".toList, name_storage.identifier, table, cases⟩) ∧
      WISE_ENUM_ADAPT d scope name_storage.identifier va_args
        = some ⟨["wise_enum".toList, "detail".toList],
                ⟨[], name_storage.identifier, table, cases⟩⟩ ∧
      table.length = va_args.length ∧
      ∀ (friendly friendly2 : List Char) (e : Int),
        to_string (⟨friendly, name_storage.identifier, table, cases⟩ : Reflection d) e
          = to_string (⟨friendly2, name_storage.identifier, table, cases⟩ : Reflection d) e ∧
        enumerators.size (⟨friendly, name_storage.identifier, table, cases⟩ : Reflection d)
          = enumerators.size (⟨friendly2, name_storage.identifier, table, cases⟩ :
              Reflection d) := by
  refine ⟨va_args.map (fun x =>
      ⟨enumerator_value scope name_storage.identifier x, enumerator_name d x⟩),
    va_args.map (fun x =>
      ⟨enumerator_value scope name_storage.identifier x, enumerator_name d x⟩),
    name_storage.storage_clause, va_args.map Arg.enumerator_definition,
    ?_, ?_, ?_, ?_, ?_, ?_, ?_⟩
  · exact IMPL_eq_spec d scope _ name_storage _ va_args hcount hfirst
  · exact IMPL_eq_spec d scope _ name_storage _ va_args hcount hfirst
  · exact IMPL_eq_spec d scope _ name_storage _ va_args hcount hfirst
  · exact IMPL_eq_spec d scope _ name_storage _ va_args hcount hfirst
  · exact ADAPT_eq_spec d scope _ va_args hcount
  · simp
  · intro friendly friendly2 e
    exact ⟨rfl, rfl⟩

/-- C13 amended, at `Color`: `WISE_ENUM_CLASS((Color, int), ...)` and
`WISE_ENUM_ADAPT(Color, ...)` generate the same table. -/
theorem C13_same_metadata_from_all_macros_witness :
    ∃ decl r a,
      WISE_ENUM_CLASS Dialect.other color_scope (Arg.paren "Color".toList "int".toList)
        color_args = some (decl, r) ∧
      WISE_ENUM_ADAPT Dialect.other color_scope "Color".toList color_args = some a ∧
      r.wise_enum_detail_array = a.body.wise_enum_detail_array := by
  obtain ⟨table, cases, storage, definitions, _, h2, _, _, h5, _⟩ :=
    C13_same_metadata_from_all_macros Dialect.other color_scope
      (Arg.paren "Color".toList "int".toList) color_args (by decide) (by decide)
  exact ⟨_, _, _, h2, h5, rfl⟩

/-- C14: `WISE_ENUM_IMPL_IS_PAREN(x)` is 1 exactly when `x` is parenthesised and 0 otherwise,
and `WISE_ENUM_IMPL_ONLY_OR_FIRST(x)` is the first element of a pair and `x` otherwise. In a
declaration with 1 to 256 entries whose values are pairwise distinct, an entry
`(identifier, initializer)` gives the enumerator `identifier = initializer` in the enum
declaration and the name `identifier` in the table and as result of `to_string`; an entry
`identifier` gives the identifier in all three places. The first argument of the declaration
is the name or a pair `(name, storage)`. -/
theorem C14_enumerator_entry_forms (d : Dialect) (scope : Scope) (type : List Char)
    (name_storage : Arg) (friendly : List Char) (va_args : List Arg)
    (hcount : enumerator_count_ok va_args) (hfirst : first_argument_ok name_storage)
    (hdistinct : (va_args.map (enumerator_value scope name_storage.identifier)).Nodup) :
    (∀ x : Arg,
      (WISE_ENUM_IMPL_IS_PAREN x = ['1'] ↔ ∃ a b, x = Arg.paren a b) ∧
      (WISE_ENUM_IMPL_IS_PAREN x = ['0'] ↔ ∃ t, x = Arg.plain t)) ∧
    (∀ a b, WISE_ENUM_IMPL_ONLY_OR_FIRST (Arg.paren a b) = a) ∧
    (∀ t, WISE_ENUM_IMPL_ONLY_OR_FIRST (Arg.plain t) = t) ∧
    ∃ decl r, WISE_ENUM_IMPL d scope type name_storage friendly va_args = some (decl, r) ∧
      ∀ (i : Nat) (hi : i < va_args.length),
        match va_args.get ⟨i, hi⟩ with
        | Arg.paren identifier initializer =>
          decl.enumerators[i]? = some (identifier ++ " = ".toList ++ initializer) ∧
          ((enumerators.range r)[i]?).map (fun x => x.name)
            = some (string_type.literal d identifier) ∧
          to_string r (scope name_storage.identifier identifier)
            = string_type.literal d identifier
        | Arg.plain identifier =>
          decl.enumerators[i]? = some identifier ∧
          ((enumerators.range r)[i]?).map (fun x => x.name)
            = some (string_type.literal d identifier) ∧
          to_string r (scope name_storage.identifier identifier)
            = string_type.literal d identifier := by
  refine ⟨?_, ONLY_OR_FIRST_paren, ONLY_OR_FIRST_plain, ?_⟩
  · intro x
    cases x with
    | plain t => simp [IS_PAREN_plain]
    | paren a b => simp [IS_PAREN_paren]
  · refine ⟨_, _, IMPL_eq_spec d scope type name_storage friendly va_args hcount hfirst, ?_⟩
    intro i hi
    have hsw := switch_return_map (d := d)
      (fun x => (⟨enumerator_value scope name_storage.identifier x, enumerator_name d x⟩ :
        SwitchCase d))
      va_args hdistinct i hi
    have hto : to_string (⟨friendly, name_storage.identifier,
          va_args.map (fun x =>
            ⟨enumerator_value scope name_storage.identifier x, enumerator_name d x⟩),
          va_args.map (fun x =>
            ⟨enumerator_value scope name_storage.identifier x, enumerator_name d x⟩)⟩ :
          Reflection d)
          (enumerator_value scope name_storage.identifier (va_args.get ⟨i, hi⟩))
        = enumerator_name d (va_args.get ⟨i, hi⟩) := by
      rw [to_string, wise_enum_detail_to_string]
      simp only at hsw ⊢
      rw [hsw]
    have hdecl : (va_args.map Arg.enumerator_definition)[i]?
        = some (va_args.get ⟨i, hi⟩).enumerator_definition := by
      rw [List.getElem?_map, List.getElem?_eq_getElem hi]
      rfl
    have htab : ((va_args.map (fun x =>
          (⟨enumerator_value scope name_storage.identifier x, enumerator_name d x⟩ :
            detail.value_and_name d)))[i]?).map (fun x => x.name)
        = some (enumerator_name d (va_args.get ⟨i, hi⟩)) := by
      rw [List.getElem?_map, List.getElem?_eq_getElem hi]
      rfl
    cases hx : va_args.get ⟨i, hi⟩ with
    | plain t =>
      rw [hx] at hto hdecl htab
      exact ⟨hdecl, htab, hto⟩
    | paren a b =>
      rw [hx] at hto hdecl htab
      exact ⟨hdecl, htab, hto⟩

/-- C14 at `WISE_ENUM_CLASS((Color, int), RED, (GREEN, 4), BLUE)`: the second enumerator is
declared as `GREEN = 4` and named `GREEN`. -/
theorem C14_enumerator_entry_forms_witness :
    ∃ decl r,
      WISE_ENUM_IMPL Dialect.other color_scope "enum class".toList
        (Arg.paren "Color".toList "int".toList) [] color_args = some (decl, r) ∧
      decl.enumerators[1]? = some "GREEN = 4".toList ∧
      to_string r 4 = CharPtr.ptr "GREEN\x00".toList := by
  obtain ⟨_, _, _, decl, r, hgen, h⟩ :=
    C14_enumerator_entry_forms Dialect.other color_scope "enum class".toList
      (Arg.paren "Color".toList "int".toList) [] color_args (by decide) (by decide)
      (by decide)
  have h1 := h 1 (by decide)
  exact ⟨decl, r, hgen, h1.1, h1.2.2⟩

/-- The behaviour that the claim on the first argument describes, where the storage has no
comma outside parentheses: with a first argument `(name, storage)` a declaring macro writes
the enum `name` with the underlying-type clause `: storage`, with a first argument `name` it
writes the enum `name` with no such clause, and in both forms it generates the same functions,
tagged with `name` and holding the table computed for `name`. -/
theorem IMPL_name_or_pair (d : Dialect) (scope : Scope) (type : List Char)
    (friendly : List Char) (va_args : List Arg) (name storage : List Char)
    (hcount : enumerator_count_ok va_args) (hst : has_top_level_comma 0 storage = false) :
    ∃ (definitions : List (List Char)) (r : Reflection d),
      WISE_ENUM_IMPL d scope type (Arg.paren name storage) friendly va_args
        = some (⟨type, name, ": ".toList ++ storage, definitions⟩, r) ∧
      WISE_ENUM_IMPL d scope type (Arg.plain name) friendly va_args
        = some (⟨type, name, [], definitions⟩, r) ∧
      r.tag = name ∧
      generated_by d scope name va_args r ∧
      enumerators.range r
        = va_args.map (fun x => ⟨enumerator_value scope name x, enumerator_name d x⟩) ∧
      r.to_string_cases
        = va_args.map (fun x => ⟨enumerator_value scope name x, enumerator_name d x⟩) := by
  have h1 := IMPL_eq_spec d scope type (Arg.paren name storage) friendly va_args hcount hst
  have h2 := IMPL_eq_spec d scope type (Arg.plain name) friendly va_args hcount trivial
  exact ⟨_, _, h1, h2, rfl, Or.inr ⟨type, Arg.plain name, friendly, _, rfl, h2⟩, rfl, rfl⟩

theorem LOOP_none_of_large {α β γ δ : Type} (k : Nat) (hk : 256 < k) (M : γ → α → β) (C : γ)
    (D : Unit → δ) (xs : List α) : WISE_ENUM_IMPL_LOOP k M C D xs = none := by
  unfold WISE_ENUM_IMPL_LOOP
  rw [if_neg (by omega)]

theorem NARG_long_eq (va_args : List Arg) (h : 257 ≤ va_args.length) :
    WISE_ENUM_IMPL_NARG va_args = some (Tok.arg (va_args.get ⟨256, h⟩)) := by
  unfold WISE_ENUM_IMPL_NARG WISE_ENUM_IMPL_NARG_ WISE_ENUM_IMPL_ARG_N
  rw [List.getElem?_append_left (by simpa using h), List.getElem?_map]
  rw [List.getElem?_eq_getElem h]
  rfl

/-- C21: for every list of k >= 257 arguments `WISE_ENUM_IMPL_NARG` yields the 257th argument
of the list, not the number k; no `WISE_ENUM_IMPL_LOOP_k` exists for k > 256; and neither
`WISE_ENUM_ADAPT` nor a declaring macro generates anything for such a list. -/
theorem C21_more_than_256_enumerators (d : Dialect) (scope : Scope) (name type : List Char)
    (name_storage : Arg) (friendly : List Char) (va_args : List Arg)
    (h : 257 ≤ va_args.length) :
    WISE_ENUM_IMPL_NARG va_args = some (Tok.arg (va_args.get ⟨256, h⟩)) ∧
    WISE_ENUM_IMPL_NARG va_args ≠ some (Tok.num va_args.length) ∧
    (∀ (k : Nat), 256 < k → ∀ (α β γ δ : Type) (M : γ → α → β) (C : γ) (D : Unit → δ)
      (xs : List α), WISE_ENUM_IMPL_LOOP k M C D xs = none) ∧
    WISE_ENUM_ADAPT d scope name va_args = none ∧
    WISE_ENUM_IMPL d scope type name_storage friendly va_args = none := by
  have hn := NARG_long_eq va_args h
  refine ⟨hn, ?_, ?_, ?_, ?_⟩
  · rw [hn]
    simp
  · intro k hk α β γ δ M C D xs
    exact LOOP_none_of_large k hk M C D xs
  · cases hres : WISE_ENUM_ADAPT d scope name va_args with
    | none => rfl
    | some a =>
      have hc := ADAPT_some_count d scope name va_args a hres
      exact absurd hc.2 (by omega)
  · cases hres : WISE_ENUM_IMPL d scope type name_storage friendly va_args with
    | none => rfl
    | some p =>
      have hc := IMPL_some_count d scope type name_storage friendly va_args p hres
      exact absurd hc.2 (by omega)

/-- C21 at a list of 257 entries ending with `LAST`: the count is the token `LAST`. -/
theorem C21_more_than_256_enumerators_witness :
    WISE_ENUM_IMPL_NARG long_args = some (Tok.arg (Arg.plain "LAST".toList)) :=
  (C21_more_than_256_enumerators Dialect.other color_scope "E".toList "enum".toList
    (Arg.plain "E".toList) [] long_args
    (by rw [long_args, List.length_append, List.length_replicate]; exact Nat.le_refl 257)).1

/-- C22: in a generated reflection, for every value that no entry of the table has,
`to_string` returns the default-constructed `string_type`, which is the null pointer for
`const char *` and the empty view for `std::string_view`. -/
theorem C22_to_string_of_unlisted_value (d : Dialect) (scope : Scope) (name : List Char)
    (va_args : List Arg) (r : Reflection d) (hgen : generated_by d scope name va_args r)
    (e : Int) (hnot : ∀ x ∈ enumerators.range r, x.value ≠ e) :
    to_string r e = string_type.default d ∧
    (string_type.default Dialect.other : CharPtr) = CharPtr.null ∧
    (string_type.default Dialect.cpp17 : List Char) = [] := by
  refine ⟨?_, rfl, rfl⟩
  obtain ⟨harr, hcases⟩ := generated_by_eq hgen
  have hnone : switch_return r.to_string_cases e = none := by
    apply switch_return_none
    intro c hc
    rw [hcases] at hc
    obtain ⟨a, ha, hac⟩ := List.mem_map.mp hc
    have hmem : (⟨enumerator_value scope name a, enumerator_name d a⟩ :
        detail.value_and_name d) ∈ enumerators.range r := by
      rw [enumerators.range, harr]
      exact List.mem_map.mpr ⟨a, ha, rfl⟩
    have := hnot _ hmem
    rw [← hac]
    exact this
  rw [to_string, wise_enum_detail_to_string, hnone]

/-- C22 at `Color`: `to_string` of the value 3, which no enumerator has, is the null
pointer. -/
theorem C22_to_string_of_unlisted_value_witness :
    to_string color_reflection 3 = CharPtr.null :=
  (C22_to_string_of_unlisted_value Dialect.other color_scope "Color".toList color_args
    color_reflection color_generated 3 (by
      intro x hx
      simp only [enumerators.range, color_reflection, List.mem_cons, List.mem_singleton,
        List.not_mem_nil, or_false] at hx
      rcases hx with h | h | h <;> rw [h] <;> decide)).1

theorem find_if_head_mem {α : Type} (pred : α → Option Bool) (l : List α) (x : α)
    (rest : List α) (h : find_if pred l = some (x :: rest)) : x ∈ l := by
  induction l with
  | nil => simp [find_if] at h
  | cons y ys ih =>
    unfold find_if at h
    cases hp : pred y with
    | none => simp [hp] at h
    | some b =>
      cases b with
      | true =>
        simp only [hp, Option.some.injEq, List.cons.injEq] at h
        rw [← h.1]
        exact List.mem_cons_self _ _
      | false =>
        simp only [hp] at h
        exact List.mem_cons_of_mem _ (ih h)

/-- C23: for every reflection and every argument `s`, if `from_string(s)` returns an optional
that holds the value `v`, then `v` is the value of an entry of `enumerators<T>::range`, and
`is_enum_value<T>` is true on it. -/
theorem C23_from_string_value_is_listed {d : Dialect} (r : Reflection d) (s : string_type d)
    (o : optional_type d) (v : Int) (hfrom : from_string r s = some o)
    (hheld : optional_type.has_value d o = true ∧ optional_type.value d o = .ok v) :
    (∃ x ∈ enumerators.range r, x.value = v) ∧ is_enum_value r v = true := by
  have hex : ∃ x ∈ enumerators.range r, x.value = v := by
    unfold from_string at hfrom
    cases hf : find_if (fun x => detail.compare d x.name s) (enumerators.range r) with
    | none => simp [hf] at hfrom
    | some it =>
      cases it with
      | nil =>
        simp only [hf, Option.some.injEq] at hfrom
        rw [← hfrom, has_value_empty] at hheld
        exact absurd hheld.1 (by simp)
      | cons x rest =>
        simp only [hf, Option.some.injEq] at hfrom
        have h2 := hheld.2
        rw [← hfrom, value_of] at h2
        exact ⟨x, find_if_head_mem _ _ _ _ hf, Except.ok.inj h2⟩
  exact ⟨hex, (is_enum_value_from_iff _ _).mpr hex⟩

/-- C23 at `Color`: `from_string("BLUE")` holds 5, and 5 is the value of an enumerator. -/
theorem C23_from_string_value_is_listed_witness :
    from_string color_reflection (CharPtr.ptr "BLUE\x00".toList) = some (optional.of 5) ∧
    is_enum_value color_reflection 5 = true :=
  ⟨rfl,
   (C23_from_string_value_is_listed color_reflection (CharPtr.ptr "BLUE\x00".toList)
    (optional.of 5) 5 rfl ⟨rfl, rfl⟩).2⟩

/-! ## Claims about values outside the interface contract -/

/-- C24: a `compact_optional` built from an enum value whose underlying integer is the
sentinel is the same object as a default-constructed one: `has_value()` is false, `value()`
throws `bad_optional_access` and `value_or(u)` returns `u`. When the static assertion of the
class passes, no entry of the table has that value. -/
theorem C24_compact_optional_of_sentinel {d : Dialect} (r : Reflection d) (invalid u : Int)
    (hassert : compact_optional.static_assert_invalid r invalid = true) :
    compact_optional.of invalid = compact_optional.default invalid ∧
    compact_optional.has_value invalid (compact_optional.of invalid) = false ∧
    compact_optional.to_bool invalid (compact_optional.of invalid) = false ∧
    compact_optional.value invalid (compact_optional.of invalid)
      = .error bad_optional_access.mk ∧
    (compact_optional.value_or invalid (compact_optional.of invalid) u).1 = .ok u ∧
    ∀ x ∈ enumerators.range r, x.value ≠ invalid := by
  refine ⟨rfl, ?_, ?_, ?_, ?_, ?_⟩
  · simp [compact_optional.has_value, compact_optional.of]
  · simp [compact_optional.to_bool, compact_optional.of]
  · simp [compact_optional.value, compact_optional.of]
  · simp [compact_optional.value_or, compact_optional.has_value, compact_optional.of]
  · intro x hx heq
    have hin : is_enum_value r invalid = true :=
      (is_enum_value_from_iff _ _).mpr ⟨x, hx, heq⟩
    simp [compact_optional.static_assert_invalid, hin] at hassert

/-- C24 at `Color` with the sentinel 7: the optional built from the value 7 is empty. -/
theorem C24_compact_optional_of_sentinel_witness :
    compact_optional.has_value 7 (compact_optional.of 7) = false ∧
    compact_optional.value 7 (compact_optional.of 7) = .error bad_optional_access.mk ∧
    (compact_optional.value_or 7 (compact_optional.of 7) 4).1 = .ok 4 :=
  have h := C24_compact_optional_of_sentinel color_reflection 7 4 (by decide)
  ⟨h.2.1, h.2.2.2.1, h.2.2.2.2.1⟩

/-- C25: `wise_enum::optional::reset()` changes only the flag `m_active`: the stored value is
kept, so after `optional(t).reset()` the unchecked `operator*` still returns `t`, while
`has_value()` is false and `value()` throws. -/
theorem C25_optional_reset_keeps_value (o : optional) (t : Int) :
    (optional.reset o).m_t = o.m_t ∧
    (optional.reset o).m_active = false ∧
    optional.deref (optional.reset o) = optional.deref o ∧
    optional.deref (optional.reset (optional.of t)) = t ∧
    optional.has_value (optional.reset (optional.of t)) = false ∧
    optional.value (optional.reset (optional.of t)) = .error bad_optional_access.mk := by
  simp [optional.reset, optional.deref, optional.of, optional.has_value, optional.value]

/-! ## Claims about `detail::strcmp` and `detail::compare` -/

theorem strcmp_mem_eq_sign (x : List Char) :
    ∀ (y t1 t2 : List Char), NUL ∉ x → NUL ∉ y →
      detail.strcmp_mem (x ++ NUL :: t1) (y ++ NUL :: t2) = some (lexicographic_sign x y) := by
  induction x with
  | nil =>
    intro y t1 t2 _ hy
    cases y with
    | nil => simp [detail.strcmp_mem, lexicographic_sign, lt_irrefl]
    | cons b y =>
      have hb : b ≠ NUL := fun h => hy (by simp [h])
      simp [detail.strcmp_mem, lexicographic_sign, NUL_lt b hb]
  | cons a x ih =>
    intro y t1 t2 hx hy
    have ha : a ≠ NUL := fun h => hx (by simp [h])
    have hx2 : NUL ∉ x := fun h => hx (List.mem_cons_of_mem _ h)
    cases y with
    | nil =>
      simp [detail.strcmp_mem, lexicographic_sign, ha, not_lt_NUL a, NUL_lt a ha]
    | cons b y =>
      have hy2 : NUL ∉ y := fun h => hy (List.mem_cons_of_mem _ h)
      by_cases hab : a = b
      · subst hab
        simp [detail.strcmp_mem, lexicographic_sign, ha, ih y t1 t2 hx2 hy2]
      · rcases lt_or_gt_of_ne hab with hlt | hgt
        · simp [detail.strcmp_mem, lexicographic_sign, hab, hlt]
        · simp [detail.strcmp_mem, lexicographic_sign, hab, hgt, lt_asymm hgt]

theorem lexicographic_sign_values (x : List Char) :
    ∀ y, lexicographic_sign x y = -1 ∨ lexicographic_sign x y = 0 ∨
      lexicographic_sign x y = 1 := by
  induction x with
  | nil =>
    intro y
    cases y <;> simp [lexicographic_sign]
  | cons a x ih =>
    intro y
    cases y with
    | nil => simp [lexicographic_sign]
    | cons b y =>
      unfold lexicographic_sign
      split
      · simp
      · split
        · simp
        · exact ih y

theorem lexicographic_sign_zero (x : List Char) :
    ∀ y, lexicographic_sign x y = 0 ↔ x = y := by
  induction x with
  | nil =>
    intro y
    cases y <;> simp [lexicographic_sign]
  | cons a x ih =>
    intro y
    cases y with
    | nil => simp [lexicographic_sign]
    | cons b y =>
      unfold lexicographic_sign
      by_cases h1 : a < b
      · simp [h1, ne_of_lt h1]
      · by_cases h2 : b < a
        · simp [h1, h2, ne_of_gt h2]
        · have hab : a = b := le_antisymm (not_lt.mp h2) (not_lt.mp h1)
          simp [h1, h2, hab, ih y]

theorem lexicographic_sign_neg (x : List Char) :
    ∀ y, lexicographic_sign x y = -1 ↔ x < y := by
  induction x with
  | nil =>
    intro y
    cases y with
    | nil =>
      simp only [lexicographic_sign]
      constructor
      · intro h
        exact absurd h (by decide)
      · intro h
        cases h
    | cons b y =>
      simp only [lexicographic_sign, true_iff]
      exact List.Lex.nil
  | cons a x ih =>
    intro y
    cases y with
    | nil =>
      simp only [lexicographic_sign]
      constructor
      · intro h
        exact absurd h (by decide)
      · intro h
        cases h
    | cons b y =>
      unfold lexicographic_sign
      by_cases h1 : a < b
      · simp only [h1, if_true, true_iff]
        exact List.Lex.rel h1
      · by_cases h2 : b < a
        · simp only [h1, h2, if_true, if_false]
          constructor
          · intro h
            exact absurd h (by decide)
          · intro h
            cases h with
            | cons _ => exact absurd h2 (lt_irrefl _)
            | rel h3 => exact absurd h3 h1
        · have hab : a = b := le_antisymm (not_lt.mp h2) (not_lt.mp h1)
          subst hab
          simp only [h1, if_false]
          rw [ih y]
          constructor
          · intro h
            exact List.Lex.cons h
          · intro h
            cases h with
            | cons h5 => exact h5
            | rel h3 => exact absurd h3 h1

theorem lexicographic_sign_swap (x : List Char) :
    ∀ y, lexicographic_sign x y = 1 ↔ lexicographic_sign y x = -1 := by
  induction x with
  | nil =>
    intro y
    cases y <;> simp [lexicographic_sign]
  | cons a x ih =>
    intro y
    cases y with
    | nil => simp [lexicographic_sign]
    | cons b y =>
      unfold lexicographic_sign
      by_cases h1 : a < b
      · simp [h1, lt_asymm h1]
      · by_cases h2 : b < a
        · simp [h1, h2]
        · simp only [h1, h2, if_false]
          exact ih y

/-! ## Lemmas: `strcmp` for either signedness of plain `char` -/

theorem char_lt_iff_toNat (a b : Char) : a < b ↔ a.toNat < b.toNat := by
  rw [Char.lt_def, UInt32.lt_def, BitVec.lt_def]
  rfl

theorem char_toNat_inj (a b : Char) (h : a.toNat = b.toNat) : a = b :=
  Char.ext (UInt32.toNat.inj h)

theorem char_value_unsigned (c : Char) : char_value false c = (c.toNat : Int) := by
  simp [char_value]

theorem char_value_NUL (sg : Bool) : char_value sg NUL = 0 := by
  cases sg <;> decide

theorem char_value_inj (sg : Bool) (a b : Char) (h : char_value sg a = char_value sg b) :
    a = b := by
  apply char_toNat_inj
  unfold char_value at h
  cases sg
  · simpa using h
  · simp only [Bool.true_and, Bool.and_eq_true, decide_eq_true_eq] at h
    split_ifs at h <;> omega

theorem sign_of_comparison (u v : Int) :
    (if u < v then some (-1) else if u > v then some 1 else some (0 : Int))
      = some (Int.sign (u - v)) := by
  rcases lt_trichotomy u v with h | h | h
  · rw [if_pos h, Int.sign_eq_neg_one_of_neg (by omega)]
  · subst h
    simp
  · rw [if_neg (by omega), if_pos h, Int.sign_eq_one_of_pos (by omega)]

theorem strcmp_chars_unsigned (m1 : List Char) :
    ∀ m2, detail.strcmp_chars false m1 m2 = detail.strcmp_mem m1 m2 := by
  induction m1 with
  | nil => intro m2; rfl
  | cons c1 r1 ih =>
    intro m2
    cases m2 with
    | nil => rfl
    | cons c2 r2 =>
      simp only [detail.strcmp_chars, detail.strcmp_mem, ih r2, char_value_unsigned,
        gt_iff_lt, Int.ofNat_lt, ← char_lt_iff_toNat]

/-- The result is 0 for a signed plain `char` exactly when it is for an unsigned one, and the
comparison reads out of bounds for the one exactly when it does for the other: what
`detail::compare` returns does not depend on the signedness. -/
theorem strcmp_chars_zero_iff (sg : Bool) (m1 : List Char) :
    ∀ m2, (detail.strcmp_chars sg m1 m2).map (fun r => r == 0)
      = (detail.strcmp_mem m1 m2).map (fun r => r == 0) := by
  induction m1 with
  | nil => intro m2; rfl
  | cons c1 r1 ih =>
    intro m2
    cases m2 with
    | nil => rfl
    | cons c2 r2 =>
      simp only [detail.strcmp_chars, detail.strcmp_mem]
      by_cases hc : (c1 != NUL && c1 == c2) = true
      · rw [if_pos hc, if_pos hc]
        exact ih r2
      · rw [if_neg hc, if_neg hc]
        by_cases heq : c1 = c2
        · subst heq
          simp [lt_irrefl]
        · have hv : char_value sg c1 ≠ char_value sg c2 :=
            fun h => heq (char_value_inj sg c1 c2 h)
          rcases lt_or_gt_of_ne hv with h1 | h1 <;>
            rcases lt_or_gt_of_ne heq with h2 | h2 <;>
              simp [h1, h2, lt_asymm h1, lt_asymm h2]

theorem strcmp_chars_eq_sign (sg : Bool) (x : List Char) :
    ∀ (y t1 t2 : List Char), NUL ∉ x → NUL ∉ y →
      detail.strcmp_chars sg (x ++ NUL :: t1) (y ++ NUL :: t2)
        = some (first_difference_sign sg x y) := by
  induction x with
  | nil =>
    intro y t1 t2 _ hy
    cases y with
    | nil => simp [detail.strcmp_chars, first_difference_sign]
    | cons b y =>
      simp only [List.nil_append, List.cons_append, detail.strcmp_chars, bne_self_eq_false,
        Bool.false_and, Bool.false_eq_true, if_false, first_difference_sign, char_value_NUL]
      exact sign_of_comparison 0 (char_value sg b)
  | cons a x ih =>
    intro y t1 t2 hx hy
    have ha : a ≠ NUL := fun h => hx (by simp [h])
    have hx2 : NUL ∉ x := fun h => hx (List.mem_cons_of_mem _ h)
    cases y with
    | nil =>
      simp only [List.nil_append, List.cons_append, detail.strcmp_chars, first_difference_sign,
        char_value_NUL]
      rw [if_neg (by simp [ha])]
      exact sign_of_comparison (char_value sg a) 0
    | cons b y =>
      have hy2 : NUL ∉ y := fun h => hy (List.mem_cons_of_mem _ h)
      simp only [List.cons_append, detail.strcmp_chars, first_difference_sign]
      by_cases hab : a = b
      · subst hab
        rw [if_pos (by simp [ha]), if_pos rfl]
        exact ih y t1 t2 hx2 hy2
      · rw [if_neg (by simp [hab]), if_neg hab]
        exact sign_of_comparison (char_value sg a) (char_value sg b)

theorem first_difference_sign_values (sg : Bool) (x : List Char) :
    ∀ y, first_difference_sign sg x y = -1 ∨ first_difference_sign sg x y = 0 ∨
      first_difference_sign sg x y = 1 := by
  have hs : ∀ u : Int, Int.sign u = -1 ∨ Int.sign u = 0 ∨ Int.sign u = 1 := by
    intro u
    rcases lt_trichotomy u 0 with h | h | h
    · exact Or.inl (Int.sign_eq_neg_one_of_neg h)
    · exact Or.inr (Or.inl (by rw [h]; rfl))
    · exact Or.inr (Or.inr (Int.sign_eq_one_of_pos h))
  induction x with
  | nil =>
    intro y
    cases y with
    | nil => simp [first_difference_sign]
    | cons b y => exact hs _
  | cons a x ih =>
    intro y
    cases y with
    | nil => exact hs _
    | cons b y =>
      unfold first_difference_sign
      split
      · exact ih y
      · exact hs _

theorem first_difference_sign_zero (sg : Bool) (x : List Char) :
    ∀ y, NUL ∉ x → NUL ∉ y → (first_difference_sign sg x y = 0 ↔ x = y) := by
  have hne : ∀ c : Char, c ≠ NUL → char_value sg c ≠ 0 := by
    intro c hc h0
    rw [← char_value_NUL sg] at h0
    exact hc (char_value_inj sg c NUL h0)
  induction x with
  | nil =>
    intro y _ hy
    cases y with
    | nil => simp [first_difference_sign]
    | cons b y =>
      have hb : b ≠ NUL := fun h => hy (by simp [h])
      simp only [first_difference_sign, Int.sign_eq_zero_iff_zero, zero_sub, neg_eq_zero]
      simp [hne b hb]
  | cons a x ih =>
    intro y hx hy
    have ha : a ≠ NUL := fun h => hx (by simp [h])
    have hx2 : NUL ∉ x := fun h => hx (List.mem_cons_of_mem _ h)
    cases y with
    | nil =>
      simp only [first_difference_sign, Int.sign_eq_zero_iff_zero, sub_zero]
      simp [hne a ha]
    | cons b y =>
      have hy2 : NUL ∉ y := fun h => hy (List.mem_cons_of_mem _ h)
      unfold first_difference_sign
      by_cases hab : a = b
      · subst hab
        rw [if_pos rfl, ih y hx2 hy2]
        simp
      · rw [if_neg hab, Int.sign_eq_zero_iff_zero]
        have hv : char_value sg a ≠ char_value sg b :=
          fun h => hab (char_value_inj sg a b h)
        constructor
        · intro h
          exact absurd (by omega) hv
        · intro h
          exact absurd (List.cons.inj h).1 hab

theorem first_difference_sign_of_shorter (sg : Bool) (x : List Char) (b : Char)
    (e : List Char) :
    first_difference_sign sg x (x ++ b :: e) = Int.sign (0 - char_value sg b) := by
  induction x with
  | nil => rfl
  | cons a x ih =>
    simp only [List.cons_append, first_difference_sign, if_true]
    exact ih

theorem compare_ptr_terminated (x y t1 t2 : List Char) (hx : NUL ∉ x) (hy : NUL ∉ y) :
    detail.compare_ptr (CharPtr.ptr (x ++ NUL :: t1)) (CharPtr.ptr (y ++ NUL :: t2))
      = some (decide (x = y)) := by
  obtain ⟨r, hr, hiff⟩ := strcmp_mem_terminated x y t1 t2 hx hy
  simp only [detail.compare_ptr, detail.strcmp, hr, Option.map_some', Option.some.injEq]
  by_cases hxy : x = y
  · simp [hxy, hiff.mpr hxy]
  · have hr0 : r ≠ 0 := fun h0 => hxy (hiff.mp h0)
    simp [hxy, hr0]

/-- C26: for two NUL-terminated strings, with characters `x` and `y` before the NUL and
anything after it, `detail::compare` is true if and only if `x` and `y` are the same sequence,
that is have the same length and the same character at every position, whatever the signedness
of plain `char`; a string and the same string followed by more characters do not compare
equal, in either order. -/
theorem C26_compare_is_string_equality (x y t1 t2 : List Char) (hx : NUL ∉ x)
    (hy : NUL ∉ y) :
    detail.compare_ptr (CharPtr.ptr (x ++ NUL :: t1)) (CharPtr.ptr (y ++ NUL :: t2))
      = some (decide (x = y)) ∧
    (∀ sg, (detail.strcmp_chars sg (x ++ NUL :: t1) (y ++ NUL :: t2)).map (fun r => r == 0)
      = some (decide (x = y))) ∧
    (x = y ↔ x.length = y.length ∧
      ∀ (i : Nat) (h1 : i < x.length) (h2 : i < y.length), x.get ⟨i, h1⟩ = y.get ⟨i, h2⟩) ∧
    (∀ e : List Char, e ≠ [] → y = x ++ e →
      detail.compare_ptr (CharPtr.ptr (x ++ NUL :: t1)) (CharPtr.ptr (y ++ NUL :: t2))
        = some false) ∧
    (∀ e : List Char, e ≠ [] → x = y ++ e →
      detail.compare_ptr (CharPtr.ptr (x ++ NUL :: t1)) (CharPtr.ptr (y ++ NUL :: t2))
        = some false) := by
  have hc := compare_ptr_terminated x y t1 t2 hx hy
  refine ⟨hc, ?_, ?_, ?_, ?_⟩
  · intro sg
    rw [strcmp_chars_zero_iff]
    exact hc
  · constructor
    · intro h
      subst h
      exact ⟨rfl, fun _ _ _ => rfl⟩
    · intro h
      exact List.ext_get h.1 h.2
  · intro e he hye
    rw [hc]
    have hne : x ≠ y := by
      intro hxy
      rw [← hxy] at hye
      exact he (List.append_right_eq_self.mp hye.symm)
    simp [hne]
  · intro e he hxe
    rw [hc]
    have hne : x ≠ y := by
      intro hxy
      rw [hxy] at hxe
      exact he (List.append_right_eq_self.mp hxe.symm)
    simp [hne]

/-- C26 at the name `RED` and the argument `REDS`: they do not compare equal. -/
theorem C26_compare_is_string_equality_witness :
    detail.compare_ptr (CharPtr.ptr "RED\x00".toList) (CharPtr.ptr "REDS\x00".toList)
      = some false :=
  (C26_compare_is_string_equality "RED".toList "REDS".toList [] [] (by decide)
    (by decide)).2.2.2.1 "S".toList (by decide) (by decide)

theorem strcmp_advances_eq (x : List Char) :
    ∀ (y t1 t2 : List Char), NUL ∉ x → NUL ∉ y →
      detail.strcmp_advances (x ++ NUL :: t1) (y ++ NUL :: t2)
        = some (common_prefix_length x y) := by
  induction x with
  | nil =>
    intro y t1 t2 _ _
    cases y <;> simp [detail.strcmp_advances, common_prefix_length]
  | cons a x ih =>
    intro y t1 t2 hx hy
    have ha : a ≠ NUL := fun h => hx (by simp [h])
    have hx2 : NUL ∉ x := fun h => hx (List.mem_cons_of_mem _ h)
    cases y with
    | nil => simp [detail.strcmp_advances, common_prefix_length, ha]
    | cons b y =>
      have hy2 : NUL ∉ y := fun h => hy (List.mem_cons_of_mem _ h)
      by_cases hab : a = b
      · subst hab
        simp [detail.strcmp_advances, common_prefix_length, ha, ih y t1 t2 hx2 hy2]
      · simp [detail.strcmp_advances, common_prefix_length, hab]

theorem common_prefix_length_le (x : List Char) :
    ∀ y, common_prefix_length x y ≤ min x.length y.length := by
  induction x with
  | nil => intro y; simp [common_prefix_length]
  | cons a x ih =>
    intro y
    cases y with
    | nil => simp [common_prefix_length]
    | cons b y =>
      unfold common_prefix_length
      split
      · have := ih y
        simp only [List.length_cons]
        omega
      · exact Nat.zero_le _

theorem strcmp_advances_isSome (m1 : List Char) :
    ∀ m2, (detail.strcmp_advances m1 m2).isSome = (detail.strcmp_mem m1 m2).isSome := by
  induction m1 with
  | nil => intro m2; rfl
  | cons c1 r1 ih =>
    intro m2
    cases m2 with
    | nil => rfl
    | cons c2 r2 =>
      simp only [detail.strcmp_advances, detail.strcmp_mem]
      by_cases hc : (c1 != NUL && c1 == c2) = true
      · rw [if_pos hc, if_pos hc, Option.isSome_map']
        exact ih r2
      · rw [if_neg hc, if_neg hc]
        split
        · rfl
        · split <;> rfl

/-- C27: for two NUL-terminated strings, with characters `x` and `y` before the NUL, the loop
of `detail::strcmp` ends after as many advances as the common prefix of `x` and `y` is long,
which is at most the smaller of the two lengths; the comparison is defined on memory that ends
with the NUL of each string, and its result does not depend on what follows the NUL, so no
character past the NUL of either string is read. -/
theorem C27_strcmp_stays_within_strings (x y t1 t2 : List Char) (hx : NUL ∉ x)
    (hy : NUL ∉ y) :
    ∃ k, detail.strcmp_advances (x ++ NUL :: t1) (y ++ NUL :: t2) = some k ∧
      k = common_prefix_length x y ∧
      k ≤ min x.length y.length ∧
      detail.strcmp_advances (x ++ [NUL]) (y ++ [NUL]) = some k ∧
      (detail.strcmp_mem (x ++ [NUL]) (y ++ [NUL])).isSome = true ∧
      detail.strcmp_mem (x ++ NUL :: t1) (y ++ NUL :: t2)
        = detail.strcmp_mem (x ++ [NUL]) (y ++ [NUL]) ∧
      ∀ m1 m2 : List Char,
        (detail.strcmp_advances m1 m2).isSome = (detail.strcmp_mem m1 m2).isSome := by
  refine ⟨_, strcmp_advances_eq x y t1 t2 hx hy, rfl, common_prefix_length_le x y,
    strcmp_advances_eq x y [] [] hx hy, ?_, ?_, strcmp_advances_isSome⟩
  · rw [strcmp_mem_eq_sign x y [] [] hx hy]
    rfl
  · rw [strcmp_mem_eq_sign x y t1 t2 hx hy, strcmp_mem_eq_sign x y [] [] hx hy]

/-- C27 at `RED` and `REDS`: three advances, and a result on the exact buffers. -/
theorem C27_strcmp_stays_within_strings_witness :
    ∃ k, detail.strcmp_advances "RED\x00".toList "REDS\x00".toList = some k ∧ k ≤ 3 := by
  obtain ⟨k, hk, _, hle, _⟩ :=
    C27_strcmp_stays_within_strings "RED".toList "REDS".toList [] [] (by decide) (by decide)
  exact ⟨k, hk, hle⟩

theorem first_difference_sign_of_extension (sg : Bool) (y : List Char) (b : Char)
    (e : List Char) :
    first_difference_sign sg (y ++ b :: e) y = Int.sign (char_value sg b - 0) := by
  induction y with
  | nil => rfl
  | cons a y ih =>
    simp only [List.cons_append, first_difference_sign, if_true]
    exact ih

theorem strcmp_chars_values (sg : Bool) (m1 : List Char) :
    ∀ (m2 : List Char) (r : Int), detail.strcmp_chars sg m1 m2 = some r →
      r = -1 ∨ r = 0 ∨ r = 1 := by
  induction m1 with
  | nil =>
    intro m2 r h
    simp [detail.strcmp_chars] at h
  | cons c1 r1 ih =>
    intro m2 r h
    cases m2 with
    | nil => simp [detail.strcmp_chars] at h
    | cons c2 r2 =>
      unfold detail.strcmp_chars at h
      split_ifs at h
      · exact ih r2 r h
      · exact Or.inl (Option.some.inj h).symm
      · exact Or.inr (Or.inr (Option.some.inj h).symm)
      · exact Or.inr (Or.inl (Option.some.inj h).symm)

/-- C28, as stated, fails where plain `char` is signed: `a` is a proper prefix of the string
`a` followed by the byte 0x80, yet `detail::strcmp` returns 1 on them, not -1, because the
`char` 0x80 has the value -128, which is less than the value 0 of the terminating NUL. -/
theorem C28_counterexample :
    detail.strcmp_chars true "a\x00".toList "a\x80\x00".toList = some 1 ∧
    "a\x80".toList = "a".toList ++ [Char.ofNat 128] ∧
    lexicographic_sign "a".toList "a\x80".toList = -1 ∧
    ¬ (∀ (sg : Bool) (x y : List Char), NUL ∉ x → NUL ∉ y →
        detail.strcmp_chars sg (x ++ [NUL]) (y ++ [NUL]) = some (lexicographic_sign x y)) := by
  refine ⟨by decide, by decide, by decide, ?_⟩
  intro h
  have h1 := h true "a".toList "a\x80".toList (by decide) (by decide)
  exact absurd h1 (by decide)

/-- C28, amended: for two NUL-terminated strings with characters `x` and `y` before the NUL,
`detail::strcmp` returns -1, 0 or 1 (and nothing else on any memory): the sign of the
difference of the `char` values at the first position where the strings differ, the NUL
counting as a character of value 0, and 0 exactly when `x` and `y` are equal. When one string
is a proper prefix of the other, it is ordered before the other exactly when the next
character of the longer string has a positive value. Where plain `char` is unsigned, this is
the lexicographic order with a proper prefix ordered before the longer string. -/
theorem C28_strcmp_sign_of_first_difference (sg : Bool) (x y t1 t2 : List Char)
    (hx : NUL ∉ x) (hy : NUL ∉ y) :
    ∃ r, detail.strcmp_chars sg (x ++ NUL :: t1) (y ++ NUL :: t2) = some r ∧
      (r = -1 ∨ r = 0 ∨ r = 1) ∧
      (∀ (m1 m2 : List Char) (r2 : Int), detail.strcmp_chars sg m1 m2 = some r2 →
        r2 = -1 ∨ r2 = 0 ∨ r2 = 1) ∧
      r = first_difference_sign sg x y ∧
      (r = 0 ↔ x = y) ∧
      (∀ (b : Char) (e : List Char), y = x ++ b :: e →
        (r = -1 ↔ 0 < char_value sg b) ∧ (r = 1 ↔ char_value sg b < 0)) ∧
      (∀ (b : Char) (e : List Char), x = y ++ b :: e →
        (r = 1 ↔ 0 < char_value sg b) ∧ (r = -1 ↔ char_value sg b < 0)) ∧
      (sg = false →
        detail.strcmp (CharPtr.ptr (x ++ NUL :: t1)) (CharPtr.ptr (y ++ NUL :: t2)) = some r ∧
        r = lexicographic_sign x y ∧ (r = -1 ↔ x < y) ∧ (r = 1 ↔ y < x)) := by
  refine ⟨_, strcmp_chars_eq_sign sg x y t1 t2 hx hy, first_difference_sign_values sg x y,
    strcmp_chars_values sg, rfl, first_difference_sign_zero sg x y hx hy, ?_, ?_, ?_⟩
  · intro b e hye
    subst hye
    rw [first_difference_sign_of_shorter, Int.sign_eq_neg_one_iff_neg, Int.sign_eq_one_iff_pos]
    constructor <;> constructor <;> intro h <;> omega
  · intro b e hxe
    subst hxe
    rw [first_difference_sign_of_extension, Int.sign_eq_neg_one_iff_neg,
      Int.sign_eq_one_iff_pos]
    constructor <;> constructor <;> intro h <;> omega
  · intro hsg
    subst hsg
    have h1 := strcmp_chars_eq_sign false x y t1 t2 hx hy
    rw [strcmp_chars_unsigned, strcmp_mem_eq_sign x y t1 t2 hx hy] at h1
    have h2 : first_difference_sign false x y = lexicographic_sign x y :=
      (Option.some.inj h1).symm
    rw [h2]
    refine ⟨strcmp_mem_eq_sign x y t1 t2 hx hy, rfl, lexicographic_sign_neg x y, ?_⟩
    rw [lexicographic_sign_swap, lexicographic_sign_neg]

/-- C28 amended, at `RED` and `REDS` with a signed plain `char`: the result is -1. -/
theorem C28_strcmp_sign_of_first_difference_witness :
    detail.strcmp_chars true "RED\x00".toList "REDS\x00".toList = some (-1) := by
  obtain ⟨r, hr, _, _, _, _, hshort, _⟩ :=
    C28_strcmp_sign_of_first_difference true "RED".toList "REDS".toList [] []
      (by decide) (by decide)
  have h := (hshort 'S' [] (by decide)).1.mpr (by decide)
  rw [← h]
  exact hr

end wise_enum
